import Mathlib

/-!
Verification development for the SPBench streaming runtime (WindFlow-based).
The definitions shallowly embed the C++ sources: the KeyBy_Emitter of
keyby_emitter.hpp as an explicit state machine over an output trace, the
Parallel_Windows constructor and routing mode of parallel_windows.hpp, the
GPU builders of builders_gpu.hpp, the Shipper of shipper.hpp, and the
inter-operator queue containers of the yahoo sequential demo benchmark.
Machine integers are modelled as Nat (all the embedded arithmetic is
increments, modulus and comparisons, which cannot overflow in the observed
ranges); assertion failures and error exits are modelled as Option.none.
-/

namespace SPBench

/-! ## Preliminaries -/

/-- Pointwise update of a function at one index, modelling a write into one
slot of a C++ vector indexed by destination. -/
def upd (f : Nat → α) (i : Nat) (v : α) : Nat → α :=
  fun j => if j = i then v else f j

/-- Last element of a list of watermarks, with a default for the empty list. -/
def lastWm (a : Nat) (l : List Nat) : Nat :=
  l.foldl (fun _ w => w) a

/-! ## Envelopes (single_t.hpp / batch_cpu_t.hpp)

The two envelope headers are not among the sources; their observable parts
are modelled from the spec (section 3, Data model) and from the way the
KeyBy emitter manipulates them. -/

/-- Modelled from the spec: single_t.hpp is missing from the sources. A
Single_t envelope carries a payload, a fields vector holding identifier,
timestamp and watermark (extended with one watermark per destination when
broadcast as a punctuation), a punctuation flag and a reference count used
to delegate deletion to the last holder. -/
structure Single_t (τ : Type) where
  tuple : τ
  fields : List Nat
  isPunctuation : Bool
  delete_counter : Nat
deriving DecidableEq

/-- Identifier slot of the fields vector of a Single_t. -/
def Single_t.getIdentifier (s : Single_t τ) : Nat := s.fields.getD 0 0

/-- Timestamp slot of the fields vector of a Single_t. -/
def Single_t.getTimestamp (s : Single_t τ) : Nat := s.fields.getD 1 0

/-- Watermark slot of the fields vector of a Single_t. -/
def Single_t.getWatermark (s : Single_t τ) : Nat := s.fields.getD 2 0

/-- Modelled from the spec: allocation of a fresh Single_t envelope with the
given payload, identifier, timestamp and watermark; the reference count
starts at one (a single logical owner). -/
def allocateSingle_t (t : τ) (ident ts wm : Nat) : Single_t τ :=
  ⟨t, [ident, ts, wm], false, 1⟩

/-- Modelled from the spec: batch_cpu_t.hpp is missing from the sources. A
batch accumulates payload slots, each slot retaining its own timestamp and
watermark in parallel arrays; the watermarks vector holds the batch-level
watermark (one entry per destination once extended for a punctuation). -/
structure Batch_CPU_t (τ : Type) where
  items : List (τ × Nat × Nat)
  watermarks : List Nat
  isPunctuation : Bool
  delete_counter : Nat
deriving DecidableEq

/-- Modelled from the spec: adding a tuple appends a slot carrying its own
timestamp and watermark, and lowers the batch-level watermark to the minimum
of the slot watermarks seen so far. -/
def Batch_CPU_t.addTuple (b : Batch_CPU_t τ) (t : τ) (ts wm : Nat) : Batch_CPU_t τ :=
  { b with
      items := b.items ++ [(t, ts, wm)]
      watermarks :=
        match b.watermarks with
        | [] => [wm]
        | w :: rest => min w wm :: rest }

/-- Number of payload slots held by the batch. -/
def Batch_CPU_t.getSize (b : Batch_CPU_t τ) : Nat := b.items.length

/-- Batch-level watermark (first entry of the watermarks vector). -/
def Batch_CPU_t.getWatermark (b : Batch_CPU_t τ) : Nat := b.watermarks.getD 0 0

/-- Modelled from the spec: allocation of a fresh, empty batch with a single
logical owner. -/
def allocateBatch_CPU_t (τ : Type) : Batch_CPU_t τ := ⟨[], [], false, 1⟩

/-! ## Messages delivered downstream by an emitter -/

/-- One envelope placed on a downstream queue together with the destination
it was sent to (the pair pushed by ff_send_out_to, or buffered in the
output_queue in tree mode). -/
inductive Msg (τ : Type) where
  | single (s : Single_t τ) (dest : Nat)
  | batch (b : Batch_CPU_t τ) (dest : Nat)
deriving DecidableEq

/-- Destination of a message. -/
def Msg.dest : Msg τ → Nat
  | .single _ d => d
  | .batch _ d => d

/-- Watermark carried by a message. -/
def Msg.wm : Msg τ → Nat
  | .single s _ => s.getWatermark
  | .batch b _ => b.getWatermark

/-- Punctuation flag of the envelope carried by a message. -/
def Msg.isPunct : Msg τ → Bool
  | .single s _ => s.isPunctuation
  | .batch b _ => b.isPunctuation

/-- Reference count installed on the envelope carried by a message. -/
def Msg.deleteCounter : Msg τ → Nat
  | .single s _ => s.delete_counter
  | .batch b _ => b.delete_counter

/-- Two messages carry the same envelope (the same Single_t, or the same
Batch_CPU_t, possibly sent to different destinations). -/
def Msg.sameEnvelope : Msg τ → Msg τ → Prop
  | .single s _, .single s' _ => s = s'
  | .batch b _, .batch b' _ => b = b'
  | _, _ => False

/-- Watermarks of the messages sent to destination d, in send order. -/
def wmsTo (d : Nat) (tr : List (Msg τ)) : List Nat :=
  (tr.filter (fun m => m.dest == d)).map Msg.wm

/-! ## KeyBy_Emitter (keyby_emitter.hpp) -/

/-- Execution mode of the enclosing PipeGraph (basic.hpp). -/
inductive Execution_Mode_t where
  | DEFAULT
  | DETERMINISTIC
  | PROBABILISTIC
deriving DecidableEq

/-- Static configuration of a KeyBy_Emitter: key extractor, hash function
(std.hash of the key type), number of destinations, output batch size (0
selects the per-tuple mode), execution mode and the WF_DEFAULT_WM_AMOUNT
compile-time constant. -/
structure KeyByConfig (τ κ : Type) where
  key_extr : τ → κ
  hashf : κ → Nat
  num_dests : Nat
  size : Nat
  execution_mode : Execution_Mode_t
  wmAmount : Nat

/-- Mutable state of a KeyBy_Emitter: one pending batch per destination, the
per-destination delivery counters of the current sample, the count of inputs
received, and the last watermark sent to each destination. -/
structure KeyByState (τ : Type) where
  batches_output : Nat → Option (Batch_CPU_t τ)
  delivered : Nat → Nat
  received_inputs : Nat
  last_sent_wms : Nat → Nat

/-- Initial state installed by the KeyBy_Emitter constructor: no pending
batches, all counters zero, all last-sent watermarks zero. -/
def initKeyBy (τ : Type) : KeyByState τ :=
  ⟨fun _ => none, fun _ => 0, 0, fun _ => 0⟩

/-- First loop of generate_punctuation over the destination indices: collect
the destinations with zero deliveries in the sample (sending their pending
batch first in batched mode, after the size and watermark assertions), and
reset the counter of every destination with deliveries. -/
def gpScan (size : Nat) : List Nat → KeyByState τ →
    Option (KeyByState τ × List Nat × List (Msg τ))
  | [], st => some (st, [], [])
  | i :: rest, st =>
    if st.delivered i = 0 then
      if size = 0 then
        (gpScan size rest st).map fun r => (r.1, i :: r.2.1, r.2.2)
      else
        match st.batches_output i with
        | none => (gpScan size rest st).map fun r => (r.1, i :: r.2.1, r.2.2)
        | some b =>
          if 0 < b.getSize ∧ st.last_sent_wms i ≤ b.getWatermark then
            (gpScan size rest
              { st with
                  last_sent_wms := upd st.last_sent_wms i b.getWatermark
                  batches_output := upd st.batches_output i none }).map
              fun r => (r.1, i :: r.2.1, Msg.batch b i :: r.2.2)
          else none
    else
      gpScan size rest { st with delivered := upd st.delivered i 0 }

/-- Loop sending one copy of a punctuation envelope to each listed
destination: assert monotonicity against the last sent watermark, record the
punctuation watermark as last sent, and emit. -/
def puncLoop (wm : Nat) (mk : Nat → Msg τ) : List Nat → KeyByState τ →
    Option (KeyByState τ × List (Msg τ))
  | [], st => some (st, [])
  | i :: rest, st =>
    if st.last_sent_wms i ≤ wm then
      (puncLoop wm mk rest
        { st with last_sent_wms := upd st.last_sent_wms i wm }).map
        fun r => (r.1, mk i :: r.2)
    else none

/-- Punctuation envelope built by the per-tuple branches of
generate_punctuation and propagate_punctuation: an empty tuple with zero
identifier and timestamp, the watermark replicated once per destination, the
punctuation flag set, and the delete counter raised by copies-1. -/
def mkPuncSingle (τ : Type) [Inhabited τ] (num_dests wm copies : Nat) : Single_t τ :=
  { tuple := default
    fields := [0, 0, wm] ++ List.replicate (num_dests - 1) wm
    isPunctuation := true
    delete_counter := 1 + (copies - 1) }

/-- Punctuation envelope built by the batched branches of
generate_punctuation and propagate_punctuation: a fresh batch holding one
empty tuple at timestamp zero, the watermark replicated once per
destination, the punctuation flag set, and the delete counter raised by
copies-1. -/
def mkPuncBatch (τ : Type) [Inhabited τ] (num_dests wm copies : Nat) : Batch_CPU_t τ :=
  let b0 := (allocateBatch_CPU_t τ).addTuple default 0 wm
  { b0 with
      watermarks := b0.watermarks ++ List.replicate (num_dests - 1) wm
      isPunctuation := true
      delete_counter := 1 + (copies - 1) }

/-- KeyBy_Emitter.generate_punctuation: when the wall-clock interval since
the last punctuation has elapsed (timeElapsed abstracts the
current_time_usecs comparison against WF_DEFAULT_WM_INTERVAL_USEC), scan the
destinations, and if any had zero deliveries send them a punctuation
carrying the current watermark. -/
def generate_punctuation [Inhabited τ] (cfg : KeyByConfig τ κ) (st : KeyByState τ)
    (wm : Nat) (timeElapsed : Bool) : Option (KeyByState τ × List (Msg τ)) :=
  if timeElapsed then
    match gpScan cfg.size (List.range cfg.num_dests) st with
    | none => none
    | some (st1, idxs, msgs1) =>
      if idxs = [] then some (st1, msgs1)
      else if cfg.size = 0 then
        let punc := mkPuncSingle τ cfg.num_dests wm idxs.length
        (puncLoop wm (fun i => Msg.single punc i) idxs st1).map
          fun r => (r.1, msgs1 ++ r.2)
      else
        let punc := mkPuncBatch τ cfg.num_dests wm idxs.length
        (puncLoop wm (fun i => Msg.batch punc i) idxs st1).map
          fun r => (r.1, msgs1 ++ r.2)
  else some (st, [])

/-- KeyBy_Emitter.routing: run the punctuation-generation check (gated on
DEFAULT mode and on the received-inputs counter), compute the destination
from the hash of the key, assert watermark monotonicity towards it, record
the watermark as last sent, deliver the Single_t and count the delivery. -/
def routing [Inhabited τ] (cfg : KeyByConfig τ κ) (st : KeyByState τ)
    (out : Single_t τ) (timeElapsed : Bool) : Option (KeyByState τ × List (Msg τ)) :=
  let gp :=
    if cfg.execution_mode = Execution_Mode_t.DEFAULT ∧
        st.received_inputs % cfg.wmAmount = 0 then
      generate_punctuation cfg st out.getWatermark timeElapsed
    else some (st, [])
  match gp with
  | none => none
  | some (st1, msgs1) =>
    let dest := cfg.hashf (cfg.key_extr out.tuple) % cfg.num_dests
    if st1.last_sent_wms dest ≤ out.getWatermark then
      some ({ st1 with
                last_sent_wms := upd st1.last_sent_wms dest out.getWatermark
                delivered := upd st1.delivered dest (st1.delivered dest + 1) },
            msgs1 ++ [Msg.single out dest])
    else none

/-- KeyBy_Emitter.routing_batched: run the punctuation-generation check,
compute the destination from the hash of the key, append the tuple (with its
own timestamp and watermark) to the pending batch of that destination
(allocating it if absent), and send the batch when it reaches the configured
size, after the monotonicity assertion. -/
def routing_batched [Inhabited τ] (cfg : KeyByConfig τ κ) (st : KeyByState τ)
    (t : τ) (ts wm : Nat) (timeElapsed : Bool) : Option (KeyByState τ × List (Msg τ)) :=
  let gp :=
    if cfg.execution_mode = Execution_Mode_t.DEFAULT ∧
        st.received_inputs % cfg.wmAmount = 0 then
      generate_punctuation cfg st wm timeElapsed
    else some (st, [])
  match gp with
  | none => none
  | some (st1, msgs1) =>
    let dest := cfg.hashf (cfg.key_extr t) % cfg.num_dests
    let b0 := match st1.batches_output dest with
              | none => allocateBatch_CPU_t τ
              | some b => b
    let b1 := b0.addTuple t ts wm
    if b1.getSize = cfg.size then
      if st1.last_sent_wms dest ≤ b1.getWatermark then
        some ({ st1 with
                  last_sent_wms := upd st1.last_sent_wms dest b1.getWatermark
                  delivered := upd st1.delivered dest (st1.delivered dest + 1)
                  batches_output := upd st1.batches_output dest none },
              msgs1 ++ [Msg.batch b1 dest])
      else none
    else
      some ({ st1 with batches_output := upd st1.batches_output dest (some b1) },
            msgs1)

/-- Loop of KeyBy_Emitter.flush over the destinations: every pending batch
is sent (after the size and monotonicity assertions), its watermark recorded
as last sent, the delivery counted and the slot cleared. -/
def flushLoop : List Nat → KeyByState τ → Option (KeyByState τ × List (Msg τ))
  | [], st => some (st, [])
  | i :: rest, st =>
    match st.batches_output i with
    | none => flushLoop rest st
    | some b =>
      if 0 < b.getSize ∧ st.last_sent_wms i ≤ b.getWatermark then
        (flushLoop rest
          { st with
              last_sent_wms := upd st.last_sent_wms i b.getWatermark
              delivered := upd st.delivered i (st.delivered i + 1)
              batches_output := upd st.batches_output i none }).map
          fun r => (r.1, Msg.batch b i :: r.2)
      else none

/-- KeyBy_Emitter.flush: a no-op in per-tuple mode, otherwise the loop
sending every pending batch. -/
def flush (cfg : KeyByConfig τ κ) (st : KeyByState τ) :
    Option (KeyByState τ × List (Msg τ)) :=
  if 0 < cfg.size then flushLoop (List.range cfg.num_dests) st
  else some (st, [])

/-- KeyBy_Emitter.propagate_punctuation: flush all partially filled batches,
then send one reference-counted copy of a punctuation envelope carrying the
given watermark to every destination. -/
def propagate_punctuation [Inhabited τ] (cfg : KeyByConfig τ κ) (st : KeyByState τ)
    (wm : Nat) : Option (KeyByState τ × List (Msg τ)) :=
  match flush cfg st with
  | none => none
  | some (st1, msgs1) =>
    if cfg.size = 0 then
      let punc := mkPuncSingle τ cfg.num_dests wm cfg.num_dests
      (puncLoop wm (fun i => Msg.single punc i) (List.range cfg.num_dests) st1).map
        fun r => (r.1, msgs1 ++ r.2)
    else
      let punc := mkPuncBatch τ cfg.num_dests wm cfg.num_dests
      (puncLoop wm (fun i => Msg.batch punc i) (List.range cfg.num_dests) st1).map
        fun r => (r.1, msgs1 ++ r.2)

/-- KeyBy_Emitter.emit: count the received input, then route the tuple
through the per-tuple or the batched path depending on the configured batch
size. -/
def emit [Inhabited τ] (cfg : KeyByConfig τ κ) (st : KeyByState τ) (t : τ)
    (ident ts wm : Nat) (timeElapsed : Bool) : Option (KeyByState τ × List (Msg τ)) :=
  let st1 := { st with received_inputs := st.received_inputs + 1 }
  if cfg.size = 0 then routing cfg st1 (allocateSingle_t t ident ts wm) timeElapsed
  else routing_batched cfg st1 t ts wm timeElapsed

/-- External stimulus applied to a KeyBy_Emitter by its owning replica: a
tuple handed to emit, a punctuation to propagate, or an end-of-stream flush.
The timeElapsed flag abstracts the wall-clock punctuation-interval check. -/
inductive KBEvent (τ : Type) where
  | emitEv (t : τ) (ident ts wm : Nat) (timeElapsed : Bool)
  | puncEv (wm : Nat)
  | flushEv
deriving DecidableEq

/-- One step of the KeyBy_Emitter on an external stimulus. -/
def stepKB [Inhabited τ] (cfg : KeyByConfig τ κ) (st : KeyByState τ) :
    KBEvent τ → Option (KeyByState τ × List (Msg τ))
  | .emitEv t ident ts wm b => emit cfg st t ident ts wm b
  | .puncEv wm => propagate_punctuation cfg st wm
  | .flushEv => flush cfg st

/-- Run of the KeyBy_Emitter over a sequence of stimuli, accumulating the
trace of messages delivered downstream; none as soon as an assertion fails. -/
def runKB [Inhabited τ] (cfg : KeyByConfig τ κ) :
    KeyByState τ → List (KBEvent τ) → Option (KeyByState τ × List (Msg τ))
  | st, [] => some (st, [])
  | st, e :: es =>
    match stepKB cfg st e with
    | none => none
    | some (st1, msgs1) =>
      match runKB cfg st1 es with
      | none => none
      | some (st2, msgs2) => some (st2, msgs1 ++ msgs2)

/-- Watermark carried by a stimulus (none for a flush, which carries no
watermark of its own). -/
def eventWm? : KBEvent τ → Option Nat
  | .emitEv _ _ _ wm _ => some wm
  | .puncEv wm => some wm
  | .flushEv => none

/-- Punctuation messages produced by propagate_punctuation: one copy of the
same envelope (reference-counted num_dests times) per destination, in
destination order. -/
def puncMsgsOf [Inhabited τ] (cfg : KeyByConfig τ κ) (wm : Nat) : List (Msg τ) :=
  if cfg.size = 0 then
    (List.range cfg.num_dests).map fun i =>
      Msg.single (mkPuncSingle τ cfg.num_dests wm cfg.num_dests) i
  else
    (List.range cfg.num_dests).map fun i =>
      Msg.batch (mkPuncBatch τ cfg.num_dests wm cfg.num_dests) i

/-- Destinations with a zero delivery counter in the current sample, the
ones generate_punctuation selects to receive a punctuation. -/
def zeroDelivered (cfg : KeyByConfig τ κ) (st : KeyByState τ) : List Nat :=
  (List.range cfg.num_dests).filter (fun i => st.delivered i == 0)

/-- Invariant of a reachable KeyBy_Emitter state, relative to an upper bound
on every watermark received so far: last-sent watermarks are below the
bound, and every pending batch is a nonempty, strictly unfilled
non-punctuation batch with a single-entry watermark vector lying between the
last-sent watermark of its destination and the bound; the per-tuple mode
keeps no pending batches. -/
def KBInv (cfg : KeyByConfig τ κ) (bound : Nat) (st : KeyByState τ) : Prop :=
  (∀ d, st.last_sent_wms d ≤ bound) ∧
  (cfg.size = 0 → ∀ d, st.batches_output d = none) ∧
  (∀ d b, st.batches_output d = some b →
    0 < b.getSize ∧ b.getSize < cfg.size ∧ b.isPunctuation = false ∧
    b.watermarks.length = 1 ∧
    st.last_sent_wms d ≤ b.getWatermark ∧ b.getWatermark ≤ bound)

/-- Relation between a state, its successor and the messages produced in
between: the watermarks sent to each destination extend the last-sent
watermark monotonically, and the new last-sent watermark of each destination
is the last one sent to it. -/
def TraceOk (st st' : KeyByState τ) (msgs : List (Msg τ)) : Prop :=
  ∀ d, List.Chain' (· ≤ ·) (st.last_sent_wms d :: wmsTo d msgs) ∧
    st'.last_sent_wms d = lastWm (st.last_sent_wms d) (wmsTo d msgs)

/-! ## Parallel_Windows (parallel_windows.hpp) -/

/-- Window type (count-based or time-based), from basic.hpp. -/
inductive Win_Type_t where
  | CB
  | TB
deriving DecidableEq

/-- Role of a windowed operator inside composed patterns, from basic.hpp. -/
inductive role_t where
  | SEQ
  | PLQ
  | WLQ
  | MAP
  | REDUCE
deriving DecidableEq

/-- Routing mode of the inputs of an operator, from basic.hpp. -/
inductive Routing_Mode_t where
  | FORWARD
  | KEYBY
  | BROADCAST
  | RESHUFFLE
deriving DecidableEq

/-- Construction parameters handed by Parallel_Windows to each of its
internal Window_Replica instances (window length, effective slide, lateness,
window type, role, replica identifier and number of replicas). -/
structure Window_Replica_Cfg where
  win_len : Nat
  slide_len : Nat
  lateness : Nat
  winType : Win_Type_t
  role : role_t
  id_repl : Nat
  num_repl : Nat
deriving DecidableEq

/-- Modelled from the spec: window_replica.hpp is missing from the sources.
Per the spec, the replica constructed with identifier i out of P owns
exactly the windows whose identifier is congruent to i modulo P, and drops
the broadcast inputs belonging only to windows it does not own. -/
def Window_Replica_Cfg.ownsWindow (r : Window_Replica_Cfg) (wid : Nat) : Bool :=
  wid % r.num_repl == r.id_repl

/-- A constructed Parallel_Windows operator: its parameters and the
configurations of its internal replicas. -/
structure Parallel_Windows_Op where
  parallelism : Nat
  win_len : Nat
  slide_len : Nat
  lateness : Nat
  winType : Win_Type_t
  replicas : List Window_Replica_Cfg
deriving DecidableEq

/-- Private constructor of Parallel_Windows: reject a zero parallelism and
zero window or slide lengths (diagnostic and exit, modelled as none); in the
non-MAP roles build parallelism replicas with an effective slide of
slide_len times parallelism and identifiers 0..parallelism-1, in the MAP
role build replicas with the plain slide and identifier 0 out of 1. -/
def Parallel_Windows_make (parallelism win_len slide_len lateness : Nat)
    (winType : Win_Type_t) (role : role_t) : Option Parallel_Windows_Op :=
  if parallelism = 0 then none
  else if win_len = 0 ∨ slide_len = 0 then none
  else if role ≠ role_t.MAP then
    some { parallelism := parallelism
           win_len := win_len
           slide_len := slide_len
           lateness := lateness
           winType := winType
           replicas := (List.range parallelism).map fun i =>
             ⟨win_len, slide_len * parallelism, lateness, winType, role, i, parallelism⟩ }
  else
    some { parallelism := parallelism
           win_len := win_len
           slide_len := slide_len
           lateness := lateness
           winType := winType
           replicas := (List.range parallelism).map fun _ =>
             ⟨win_len, slide_len, lateness, winType, role, 0, 1⟩ }

/-- Parallel_Windows.getInputRoutingMode always answers BROADCAST. -/
def Parallel_Windows_Op.getInputRoutingMode (_ : Parallel_Windows_Op) : Routing_Mode_t :=
  Routing_Mode_t.BROADCAST

/-! ## FFAT_AggregatorGPU_Builder (builders_gpu.hpp) -/

/-- Mutable fields of the FFAT_AggregatorGPU_Builder that the runtime
validity checks read and write. -/
structure FFATAggGPUBuilder where
  parallelism : Nat
  isKeyBySet : Bool
  outputBatchSize : Nat
  win_len : Nat
  slide_len : Nat
  quantum : Nat
  lateness : Nat
  winType : Win_Type_t
deriving DecidableEq

/-- Defaults installed by the FFAT_AggregatorGPU_Builder constructor. -/
def FFATAggGPUBuilder.init : FFATAggGPUBuilder :=
  ⟨1, false, 0, 0, 0, 0, 0, Win_Type_t.CB⟩

/-- Builder option withParallelism. -/
def FFATAggGPUBuilder.withParallelism (b : FFATAggGPUBuilder) (p : Nat) :
    FFATAggGPUBuilder :=
  { b with parallelism := p }

/-- Builder option withKeyBy: records that a key extractor is present. -/
def FFATAggGPUBuilder.withKeyBy (b : FFATAggGPUBuilder) : FFATAggGPUBuilder :=
  { b with isKeyBySet := true }

/-- Builder option withCBWindows: count-based semantics, lateness reset. -/
def FFATAggGPUBuilder.withCBWindows (b : FFATAggGPUBuilder) (w s : Nat) :
    FFATAggGPUBuilder :=
  { b with win_len := w, slide_len := s, winType := Win_Type_t.CB, lateness := 0 }

/-- Builder option withTBWindows: time-based semantics; a quantum that does
not divide both the window length and the slide is a diagnostic-and-exit
(none). -/
def FFATAggGPUBuilder.withTBWindows (b : FFATAggGPUBuilder) (w s q : Nat) :
    Option FFATAggGPUBuilder :=
  if w % q ≠ 0 ∨ s % q ≠ 0 then none
  else some { b with win_len := w, slide_len := s, quantum := q,
                     winType := Win_Type_t.TB }

/-- Builder option withLateness: rejected (diagnostic and exit, none) unless
time-based semantics was selected. -/
def FFATAggGPUBuilder.withLateness (b : FFATAggGPUBuilder) (l : Nat) :
    Option FFATAggGPUBuilder :=
  if b.winType ≠ Win_Type_t.TB then none
  else some { b with lateness := l }

/-- Parameters of a constructed FFAT_Aggregator_GPU operator. -/
structure FFATAggGPUOp where
  parallelism : Nat
  outputBatchSize : Nat
  win_len : Nat
  slide_len : Nat
  quantum : Nat
  lateness : Nat
  winType : Win_Type_t
deriving DecidableEq

/-- FFAT_AggregatorGPU_Builder.build: parallelism above one without a key
extractor is a diagnostic-and-exit (none); otherwise the operator instance
is created from the accumulated configuration. -/
def FFATAggGPUBuilder.build (b : FFATAggGPUBuilder) : Option FFATAggGPUOp :=
  if ¬ b.isKeyBySet ∧ 1 < b.parallelism then none
  else some ⟨b.parallelism, b.outputBatchSize, b.win_len, b.slide_len,
             b.quantum, b.lateness, b.winType⟩

/-! ## Shipper (shipper.hpp) -/

/-- Observable state of a Shipper: the delivery counter, the timestamp and
watermark installed by setShipperParameters, and the sequence of results
handed to the emitter together with the timestamp and watermark each was
sent with. -/
structure ShipperState (ρ : Type) where
  num_delivered : Nat
  timestamp : Nat
  watermark : Nat
  emitted : List (ρ × Nat × Nat)
deriving DecidableEq

/-- State installed by the Shipper constructor. -/
def ShipperState.init (ρ : Type) : ShipperState ρ := ⟨0, 0, 0, []⟩

/-- Shipper.setShipperParameters: install the timestamp and watermark of the
current input tuple. -/
def ShipperState.setShipperParameters (st : ShipperState ρ) (ts wm : Nat) :
    ShipperState ρ :=
  { st with timestamp := ts, watermark := wm }

/-- Shipper.push: forward the result through the emitter with the installed
timestamp and watermark, and count the delivery. -/
def ShipperState.push (st : ShipperState ρ) (r : ρ) : ShipperState ρ :=
  { st with
      emitted := st.emitted ++ [(r, st.timestamp, st.watermark)]
      num_delivered := st.num_delivered + 1 }

/-- Shipper.getNumDelivered. -/
def ShipperState.getNumDelivered (st : ShipperState ρ) : Nat := st.num_delivered

/-- Calls made on a Shipper by the FlatMap replica (setShipperParameters
before each functor invocation) and by the functor (push). -/
inductive ShipOp (ρ : Type) where
  | setParams (ts wm : Nat)
  | push (r : ρ)
deriving DecidableEq

/-- Run of a Shipper over a sequence of calls. -/
def runShipper (st : ShipperState ρ) : List (ShipOp ρ) → ShipperState ρ
  | [] => st
  | .setParams ts wm :: rest => runShipper (st.setShipperParameters ts wm) rest
  | .push r :: rest => runShipper (st.push r) rest

/-- Number of push calls in a sequence of Shipper calls. -/
def shipPushCount : List (ShipOp ρ) → Nat
  | [] => 0
  | .setParams _ _ :: rest => shipPushCount rest
  | .push _ :: rest => 1 + shipPushCount rest

/-- Results the spec expects the Shipper to forward: every pushed result
paired with the timestamp and watermark most recently installed before the
push. -/
def shipExpected (ts wm : Nat) : List (ShipOp ρ) → List (ρ × Nat × Nat)
  | [] => []
  | .setParams ts' wm' :: rest => shipExpected ts' wm' rest
  | .push r :: rest => (r, ts, wm) :: shipExpected ts wm rest

/-! ## Yahoo sequential demo benchmark (yahoo_utils.hpp, Aggregate_op.cpp,
Filter_op.cpp) -/

/-- The four inter-operator queue vectors of the item_data member of an
Item in the yahoo demo benchmark. -/
structure ItemData (α : Type) where
  source_to_filter : List α
  filter_to_join : List α
  join_to_aggregate : List α
  aggregate_to_sink : List α
deriving DecidableEq

/-- One iteration of the loop body of Aggregate::Aggregate_op: read the Item
at the back of the join_to_aggregate vector, pop the back of the
filter_to_join vector, apply the aggregate update and push the result onto
aggregate_to_sink. Reading the back of an empty vector or popping an empty
vector is undefined behaviour, modelled as none. -/
def Aggregate_iter (aggUpdate : α → α) (d : ItemData α) : Option (ItemData α) :=
  match d.join_to_aggregate.getLast? with
  | none => none
  | some it =>
    match d.filter_to_join with
    | [] => none
    | _ :: _ =>
      some { d with
               filter_to_join := d.filter_to_join.dropLast
               aggregate_to_sink := d.aggregate_to_sink ++ [aggUpdate it] }

/-- Destructor invocations received by the item_data member of the Item
consumed by Sink::op: the explicit destructor call written in the operator
body, followed by the implicit destruction of the data member when the Item
goes out of scope in the main loop. -/
inductive ItemDataDtor where
  | explicitCall
  | scopeExit
deriving DecidableEq

/-- Sequence of destructor invocations on the item_data member across one
Sink::op call and the end of the enclosing iteration. -/
def sink_item_data_dtors : List ItemDataDtor :=
  [ItemDataDtor.explicitCall, ItemDataDtor.scopeExit]

/-! ## Concrete configurations used to exercise the definitions -/

/-- KeyBy emitter over Nat tuples with identity key and hash, two
destinations, per-tuple mode, DEFAULT execution mode, punctuation check
every five inputs. -/
def cfgPerTuple : KeyByConfig Nat Nat :=
  ⟨id, id, 2, 0, Execution_Mode_t.DEFAULT, 5⟩

/-- KeyBy emitter over Nat tuples with identity key and hash, two
destinations, batches of two, DEFAULT execution mode, punctuation check
every five inputs. -/
def cfgBatched : KeyByConfig Nat Nat :=
  ⟨id, id, 2, 2, Execution_Mode_t.DEFAULT, 5⟩

/-- KeyBy emitter in DETERMINISTIC execution mode, per-tuple, two
destinations, punctuation check on every input. -/
def cfgDeterministic : KeyByConfig Nat Nat :=
  ⟨id, id, 2, 0, Execution_Mode_t.DETERMINISTIC, 1⟩

/-- KeyBy emitter in DEFAULT execution mode, per-tuple, two destinations,
punctuation check on every input. -/
def cfgDefaultEvery : KeyByConfig Nat Nat :=
  ⟨id, id, 2, 0, Execution_Mode_t.DEFAULT, 1⟩

/-! ## Helper lemmas -/

theorem upd_same (f : Nat → α) (i : Nat) (v : α) : upd f i v i = v := by
  simp [upd]

theorem upd_ne (f : Nat → α) {i j : Nat} (v : α) (h : j ≠ i) : upd f i v j = f j := by
  simp [upd, h]

theorem lastWm_nil (a : Nat) : lastWm a [] = a := rfl

theorem lastWm_cons (a w : Nat) (l : List Nat) : lastWm a (w :: l) = lastWm w l := rfl

theorem lastWm_append (a : Nat) (l1 l2 : List Nat) :
    lastWm a (l1 ++ l2) = lastWm (lastWm a l1) l2 := by
  simp [lastWm, List.foldl_append]

theorem chain_le_stitch {a : Nat} {l1 l2 : List Nat}
    (h1 : List.Chain' (· ≤ ·) (a :: l1))
    (h2 : List.Chain' (· ≤ ·) (lastWm a l1 :: l2)) :
    List.Chain' (· ≤ ·) (a :: (l1 ++ l2)) := by
  induction l1 generalizing a with
  | nil => exact h2
  | cons w l ih =>
      rw [List.chain'_cons] at h1
      show List.Chain' (· ≤ ·) (a :: w :: (l ++ l2))
      rw [List.chain'_cons]
      exact ⟨h1.1, ih h1.2 h2⟩

theorem wmsTo_nil (d : Nat) : wmsTo d ([] : List (Msg τ)) = [] := rfl

theorem wmsTo_append (d : Nat) (l1 l2 : List (Msg τ)) :
    wmsTo d (l1 ++ l2) = wmsTo d l1 ++ wmsTo d l2 := by
  simp [wmsTo, List.filter_append]

theorem wmsTo_cons (d : Nat) (m : Msg τ) (l : List (Msg τ)) :
    wmsTo d (m :: l) = if m.dest = d then m.wm :: wmsTo d l else wmsTo d l := by
  by_cases h : m.dest = d <;> simp [wmsTo, List.filter_cons, h]

theorem traceOk_nil {st st' : KeyByState τ}
    (h : ∀ d, st'.last_sent_wms d = st.last_sent_wms d) : TraceOk st st' [] := by
  intro d
  simp [wmsTo, lastWm, h d]

theorem traceOk_single {st st' : KeyByState τ} {m : Msg τ}
    (hle : st.last_sent_wms m.dest ≤ m.wm)
    (h : ∀ d, st'.last_sent_wms d = if d = m.dest then m.wm else st.last_sent_wms d) :
    TraceOk st st' [m] := by
  intro d
  have hw : wmsTo d [m] = if d = m.dest then [m.wm] else [] := by
    by_cases hd : d = m.dest
    · simp [wmsTo, hd]
    · simp [wmsTo, hd, Ne.symm hd]
  rw [hw, h d]
  by_cases hd : d = m.dest
  · subst hd
    simp [lastWm]
    exact hle
  · simp [hd, lastWm]

theorem traceOk_append {st1 st2 st3 : KeyByState τ} {m1 m2 : List (Msg τ)}
    (h1 : TraceOk st1 st2 m1) (h2 : TraceOk st2 st3 m2) :
    TraceOk st1 st3 (m1 ++ m2) := by
  intro d
  obtain ⟨c1, e1⟩ := h1 d
  obtain ⟨c2, e2⟩ := h2 d
  rw [wmsTo_append]
  refine ⟨chain_le_stitch c1 ?_, ?_⟩
  · rw [← e1]
    exact c2
  · rw [lastWm_append, ← e1, e2]

theorem traceOk_eq_left {st0 st1 st2 : KeyByState τ} {m : List (Msg τ)}
    (h : st0.last_sent_wms = st1.last_sent_wms) (ht : TraceOk st1 st2 m) :
    TraceOk st0 st2 m := by
  intro d
  rw [TraceOk] at ht
  rw [h]
  exact ht d

theorem kbinv_mono {cfg : KeyByConfig τ κ} {b1 b2 : Nat} {st : KeyByState τ}
    (h : KBInv cfg b1 st) (hle : b1 ≤ b2) : KBInv cfg b2 st := by
  obtain ⟨h1, h2, h3⟩ := h
  refine ⟨fun d => (h1 d).trans hle, h2, fun d b hb => ?_⟩
  obtain ⟨g1, g2, g3, g4, g5, g6⟩ := h3 d b hb
  exact ⟨g1, g2, g3, g4, g5, g6.trans hle⟩

theorem kbinv_init (cfg : KeyByConfig τ κ) (bound : Nat) :
    KBInv cfg bound (initKeyBy τ) := by
  refine ⟨fun d => Nat.zero_le _, fun _ d => rfl, fun d b hb => ?_⟩
  simp [initKeyBy] at hb

theorem puncLoop_sound {τ : Type} (wm : Nat) (mk : Nat → Msg τ)
    (hmk : ∀ i, (mk i).dest = i ∧ (mk i).wm = wm) :
    ∀ (is : List Nat) (st : KeyByState τ),
      (∀ i ∈ is, st.last_sent_wms i ≤ wm) →
      ∃ st', puncLoop wm mk is st = some (st', is.map mk) ∧
        (∀ d, st'.last_sent_wms d = if d ∈ is then wm else st.last_sent_wms d) ∧
        st'.delivered = st.delivered ∧
        st'.batches_output = st.batches_output ∧
        TraceOk st st' (is.map mk)
  | [], st => by
      intro _
      refine ⟨st, rfl, ?_, rfl, rfl, traceOk_nil fun d => rfl⟩
      intro d
      simp
  | i :: rest, st => by
      intro hle
      have hi : st.last_sent_wms i ≤ wm := hle i (List.mem_cons_self i rest)
      set stm : KeyByState τ :=
        { st with last_sent_wms := upd st.last_sent_wms i wm } with hstm
      have hle' : ∀ j ∈ rest, stm.last_sent_wms j ≤ wm := by
        intro j hj
        by_cases hji : j = i
        · subst hji
          simp [hstm, upd_same]
        · simp only [hstm]
          rw [upd_ne _ _ hji]
          exact hle j (List.mem_cons_of_mem _ hj)
      obtain ⟨st', hrun, hlast, hdel, hbat, htr⟩ := puncLoop_sound wm mk hmk rest stm hle'
      refine ⟨st', ?_, ?_, ?_, ?_, ?_⟩
      · simp only [puncLoop, if_pos hi, ← hstm, hrun, Option.map_some]
        rfl
      · intro d
        rw [hlast d]
        by_cases hd : d ∈ rest
        · simp [hd, List.mem_cons]
        · by_cases hdi : d = i
          · subst hdi
            simp [hd, hstm, upd_same]
          · simp only [hstm]
            simp [hd, hdi, upd_ne _ _ hdi]
      · rw [hdel]
      · rw [hbat]
      · show TraceOk st st' (mk i :: rest.map mk)
        have h1 : TraceOk st stm [mk i] := by
          refine traceOk_single ?_ ?_
          · rw [(hmk i).1, (hmk i).2]
            exact hi
          · intro d
            rw [(hmk i).1, (hmk i).2]
            by_cases hdi : d = i
            · subst hdi
              simp [hstm, upd_same]
            · simp only [hstm]
              simp [hdi, upd_ne _ _ hdi]
        have := traceOk_append h1 htr
        simpa using this

theorem gpScan_sound {τ κ : Type} (cfg : KeyByConfig τ κ) {bound : Nat} :
    ∀ (is : List Nat) (st : KeyByState τ), is.Nodup → KBInv cfg bound st →
      ∃ st' idxs msgs, gpScan cfg.size is st = some (st', idxs, msgs) ∧
        KBInv cfg bound st' ∧
        TraceOk st st' msgs ∧
        idxs = is.filter (fun i => st.delivered i == 0) ∧
        (∀ d, st'.delivered d = if d ∈ is then 0 else st.delivered d) ∧
        (∀ i ∈ idxs, st'.batches_output i = none) ∧
        (∀ d, d ∉ is → st'.batches_output d = st.batches_output d) ∧
        (∀ m ∈ msgs, m.isPunct = false ∧ m.dest ∈ idxs ∧
          ∃ b, st.batches_output m.dest = some b ∧ m = Msg.batch b m.dest)
  | [], st => by
      intro _ hInv
      refine ⟨st, [], [], rfl, hInv, traceOk_nil fun d => rfl, rfl, ?_, ?_, ?_, ?_⟩
      · intro d
        simp
      · intro i hi
        simp at hi
      · intro d _
        rfl
      · intro m hm
        simp at hm
  | i :: rest, st => by
      intro hnd hInv
      obtain ⟨hni, hndr⟩ := List.nodup_cons.mp hnd
      by_cases hdel : st.delivered i = 0
      · by_cases hsz : cfg.size = 0
        · obtain ⟨st', idxs, msgs, hrun, hInv', htr, hidxs, hdlv, hbz, hbo, hmsg⟩ :=
            gpScan_sound cfg rest st hndr hInv
          refine ⟨st', i :: idxs, msgs, ?_, hInv', htr, ?_, ?_, ?_, ?_, ?_⟩
          · simp only [gpScan, if_pos hdel, if_pos hsz, hrun]
            rfl
          · rw [hidxs]
            simp [List.filter_cons, hdel]
          · intro d
            rw [hdlv d]
            by_cases hdr : d ∈ rest
            · simp [hdr]
            · by_cases hdi : d = i
              · subst hdi
                simp [hdr, hdel]
              · simp [hdr, hdi]
          · intro j hj
            rcases List.mem_cons.mp hj with hji | hjr
            · subst hji
              exact hInv'.2.1 hsz j
            · exact hbz j hjr
          · intro d hd
            exact hbo d fun hdr => hd (List.mem_cons_of_mem _ hdr)
          · intro m hm
            obtain ⟨g1, g2, g3⟩ := hmsg m hm
            exact ⟨g1, List.mem_cons_of_mem _ g2, g3⟩
        · cases hbat : st.batches_output i with
          | none =>
            obtain ⟨st', idxs, msgs, hrun, hInv', htr, hidxs, hdlv, hbz, hbo, hmsg⟩ :=
              gpScan_sound cfg rest st hndr hInv
            refine ⟨st', i :: idxs, msgs, ?_, hInv', htr, ?_, ?_, ?_, ?_, ?_⟩
            · simp only [gpScan, if_pos hdel, if_neg hsz, hbat, hrun]
              rfl
            · rw [hidxs]
              simp [List.filter_cons, hdel]
            · intro d
              rw [hdlv d]
              by_cases hdr : d ∈ rest
              · simp [hdr]
              · by_cases hdi : d = i
                · subst hdi
                  simp [hdr, hdel]
                · simp [hdr, hdi]
            · intro j hj
              rcases List.mem_cons.mp hj with hji | hjr
              · subst hji
                rw [hbo j hni]
                exact hbat
              · exact hbz j hjr
            · intro d hd
              exact hbo d fun hdr => hd (List.mem_cons_of_mem _ hdr)
            · intro m hm
              obtain ⟨g1, g2, g3⟩ := hmsg m hm
              exact ⟨g1, List.mem_cons_of_mem _ g2, g3⟩
          | some b =>
            obtain ⟨hpos, hlt, hpunc, hwms, hle, hbd⟩ := hInv.2.2 i b hbat
            set stm : KeyByState τ :=
              { st with
                  last_sent_wms := upd st.last_sent_wms i b.getWatermark
                  batches_output := upd st.batches_output i none } with hstm
            have hInvm : KBInv cfg bound stm := by
              refine ⟨?_, ?_, ?_⟩
              · intro d
                by_cases hdi : d = i
                · subst hdi
                  simp only [hstm]
                  rw [upd_same]
                  exact hbd
                · simp only [hstm]
                  rw [upd_ne _ _ hdi]
                  exact hInv.1 d
              · intro h
                exact absurd h hsz
              · intro d b' hb'
                by_cases hdi : d = i
                · subst hdi
                  simp only [hstm] at hb'
                  rw [upd_same] at hb'
                  cases hb'
                · simp only [hstm] at hb' ⊢
                  rw [upd_ne _ _ hdi] at hb'
                  obtain ⟨g1, g2, g3, g4, g5, g6⟩ := hInv.2.2 d b' hb'
                  rw [upd_ne _ _ hdi]
                  exact ⟨g1, g2, g3, g4, g5, g6⟩
            obtain ⟨st', idxs, msgs, hrun, hInv', htr, hidxs, hdlv, hbz, hbo, hmsg⟩ :=
              gpScan_sound cfg rest stm hndr hInvm
            refine ⟨st', i :: idxs, Msg.batch b i :: msgs, ?_, hInv', ?_, ?_, ?_, ?_, ?_, ?_⟩
            · simp only [gpScan, if_pos hdel, if_neg hsz, hbat, if_pos (And.intro hpos hle),
                ← hstm, hrun]
              rfl
            · have h1 : TraceOk st stm [Msg.batch b i] := by
                refine traceOk_single hle ?_
                intro d
                by_cases hdi : d = i
                · subst hdi
                  simp only [hstm]
                  rw [upd_same]
                  simp [Msg.dest, Msg.wm]
                · simp only [hstm]
                  rw [upd_ne _ _ hdi]
                  simp [Msg.dest, Msg.wm, hdi]
              have := traceOk_append h1 htr
              simpa using this
            · rw [hidxs]
              have hfc : rest.filter (fun j => stm.delivered j == 0)
                  = rest.filter (fun j => st.delivered j == 0) := by
                apply List.filter_congr
                intro j _
                rfl
              rw [hfc]
              simp [List.filter_cons, hdel]
            · intro d
              rw [hdlv d]
              by_cases hdr : d ∈ rest
              · simp [hdr]
              · by_cases hdi : d = i
                · subst hdi
                  simpa [hdr] using hdel
                · simp [hdr, hdi]
            · intro j hj
              rcases List.mem_cons.mp hj with hji | hjr
              · subst hji
                rw [hbo j hni]
                simp only [hstm]
                rw [upd_same]
              · exact hbz j hjr
            · intro d hd
              have hdi : d ≠ i := fun h => hd (h ▸ List.mem_cons_self i rest)
              have hdr : d ∉ rest := fun h => hd (List.mem_cons_of_mem _ h)
              rw [hbo d hdr]
              simp only [hstm]
              rw [upd_ne _ _ hdi]
            · intro m hm
              rcases List.mem_cons.mp hm with hmi | hmr
              · subst hmi
                refine ⟨hpunc, List.mem_cons_self i idxs, b, hbat, rfl⟩
              · obtain ⟨g1, g2, g3⟩ := hmsg m hmr
                obtain ⟨b', hb', hmb⟩ := g3
                have g2r : m.dest ∈ rest := by
                  rw [hidxs] at g2
                  exact (List.mem_filter.mp g2).1
                have hdi : m.dest ≠ i := by
                  intro h
                  exact hni (h ▸ g2r)
                simp only [hstm] at hb'
                rw [upd_ne _ _ hdi] at hb'
                exact ⟨g1, List.mem_cons_of_mem _ g2, b', hb', hmb⟩
      · set stm : KeyByState τ := { st with delivered := upd st.delivered i 0 } with hstm
        have hInvm : KBInv cfg bound stm := hInv
        obtain ⟨st', idxs, msgs, hrun, hInv', htr, hidxs, hdlv, hbz, hbo, hmsg⟩ :=
          gpScan_sound cfg rest stm hndr hInvm
        refine ⟨st', idxs, msgs, ?_, hInv', traceOk_eq_left rfl htr, ?_, ?_, hbz, ?_, ?_⟩
        · simp only [gpScan, if_neg hdel, ← hstm, hrun]
        · rw [hidxs]
          have hfc : rest.filter (fun j => stm.delivered j == 0)
              = rest.filter (fun j => st.delivered j == 0) := by
            apply List.filter_congr
            intro j hj
            have hji : j ≠ i := fun h => hni (h ▸ hj)
            simp only [hstm]
            rw [upd_ne _ _ hji]
          rw [hfc]
          simp [List.filter_cons, hdel]
        · intro d
          rw [hdlv d]
          by_cases hdr : d ∈ rest
          · simp [hdr]
          · by_cases hdi : d = i
            · subst hdi
              simp only [hstm]
              simp [hdr, upd_same]
            · simp only [hstm]
              simp [hdr, hdi, upd_ne _ _ hdi]
        · intro d hd
          exact hbo d fun hdr => hd (List.mem_cons_of_mem _ hdr)
        · intro m hm
          obtain ⟨g1, g2, g3⟩ := hmsg m hm
          exact ⟨g1, g2, g3⟩

theorem mkPuncSingle_getWatermark (τ : Type) [Inhabited τ] (K wm c : Nat) :
    (mkPuncSingle τ K wm c).getWatermark = wm := by
  simp [mkPuncSingle, Single_t.getWatermark]

theorem mkPuncBatch_getWatermark (τ : Type) [Inhabited τ] (K wm c : Nat) :
    (mkPuncBatch τ K wm c).getWatermark = wm := by
  simp [mkPuncBatch, allocateBatch_CPU_t, Batch_CPU_t.addTuple, Batch_CPU_t.getWatermark]

theorem flushLoop_sound {τ κ : Type} (cfg : KeyByConfig τ κ) {bound : Nat} :
    ∀ (is : List Nat) (st : KeyByState τ), is.Nodup → KBInv cfg bound st →
      ∃ st' msgs, flushLoop is st = some (st', msgs) ∧
        KBInv cfg bound st' ∧
        TraceOk st st' msgs ∧
        (∀ d ∈ is, st'.batches_output d = none) ∧
        (∀ d, d ∉ is → st'.batches_output d = st.batches_output d) ∧
        msgs = is.filterMap (fun i => (st.batches_output i).map (fun b => Msg.batch b i)) ∧
        (∀ m ∈ msgs, m.isPunct = false)
  | [], st => by
      intro _ hInv
      refine ⟨st, [], rfl, hInv, traceOk_nil fun d => rfl, ?_, fun d _ => rfl, rfl, ?_⟩
      · intro d hd
        simp at hd
      · intro m hm
        simp at hm
  | i :: rest, st => by
      intro hnd hInv
      obtain ⟨hni, hndr⟩ := List.nodup_cons.mp hnd
      cases hbat : st.batches_output i with
      | none =>
        obtain ⟨st', msgs, hrun, hInv', htr, hbz, hbo, hmc, hmp⟩ :=
          flushLoop_sound cfg rest st hndr hInv
        refine ⟨st', msgs, ?_, hInv', htr, ?_, ?_, ?_, hmp⟩
        · simp only [flushLoop, hbat, hrun]
        · intro d hd
          rcases List.mem_cons.mp hd with hdi | hdr
          · subst hdi
            rw [hbo d hni]
            exact hbat
          · exact hbz d hdr
        · intro d hd
          exact hbo d fun hdr => hd (List.mem_cons_of_mem _ hdr)
        · rw [hmc]
          simp [List.filterMap_cons, hbat]
      | some b =>
        obtain ⟨hpos, hlt, hpunc, hwms, hle, hbd⟩ := hInv.2.2 i b hbat
        set stm : KeyByState τ :=
          { st with
              last_sent_wms := upd st.last_sent_wms i b.getWatermark
              delivered := upd st.delivered i (st.delivered i + 1)
              batches_output := upd st.batches_output i none } with hstm
        have hInvm : KBInv cfg bound stm := by
          refine ⟨?_, ?_, ?_⟩
          · intro d
            by_cases hdi : d = i
            · subst hdi
              simp only [hstm]
              rw [upd_same]
              exact hbd
            · simp only [hstm]
              rw [upd_ne _ _ hdi]
              exact hInv.1 d
          · intro h
            have := hInv.2.1 h i
            rw [hbat] at this
            cases this
          · intro d b' hb'
            by_cases hdi : d = i
            · subst hdi
              simp only [hstm] at hb'
              rw [upd_same] at hb'
              cases hb'
            · simp only [hstm] at hb' ⊢
              rw [upd_ne _ _ hdi] at hb'
              obtain ⟨g1, g2, g3, g4, g5, g6⟩ := hInv.2.2 d b' hb'
              rw [upd_ne _ _ hdi]
              exact ⟨g1, g2, g3, g4, g5, g6⟩
        obtain ⟨st', msgs, hrun, hInv', htr, hbz, hbo, hmc, hmp⟩ :=
          flushLoop_sound cfg rest stm hndr hInvm
        refine ⟨st', Msg.batch b i :: msgs, ?_, hInv', ?_, ?_, ?_, ?_, ?_⟩
        · simp only [flushLoop, hbat, if_pos (And.intro hpos hle), ← hstm, hrun]
          rfl
        · have h1 : TraceOk st stm [Msg.batch b i] := by
            refine traceOk_single hle ?_
            intro d
            by_cases hdi : d = i
            · subst hdi
              simp only [hstm]
              rw [upd_same]
              simp [Msg.dest, Msg.wm]
            · simp only [hstm]
              rw [upd_ne _ _ hdi]
              simp [Msg.dest, Msg.wm, hdi]
          have := traceOk_append h1 htr
          simpa using this
        · intro d hd
          rcases List.mem_cons.mp hd with hdi | hdr
          · subst hdi
            rw [hbo d hni]
            simp only [hstm]
            rw [upd_same]
          · exact hbz d hdr
        · intro d hd
          have hdi : d ≠ i := fun h => hd (h ▸ List.mem_cons_self i rest)
          have hdr : d ∉ rest := fun h => hd (List.mem_cons_of_mem _ h)
          rw [hbo d hdr]
          simp only [hstm]
          rw [upd_ne _ _ hdi]
        · rw [hmc]
          have hfc : rest.filterMap (fun j => (stm.batches_output j).map (fun b' => Msg.batch b' j))
              = rest.filterMap (fun j => (st.batches_output j).map (fun b' => Msg.batch b' j)) := by
            apply List.filterMap_congr
            intro j hj
            have hji : j ≠ i := fun h => hni (h ▸ hj)
            simp only [hstm]
            rw [upd_ne _ _ hji]
          rw [hfc]
          simp [List.filterMap_cons, hbat]
        · intro m hm
          rcases List.mem_cons.mp hm with hmi | hmr
          · subst hmi
            exact hpunc
          · exact hmp m hmr

theorem flush_sound {τ κ : Type} (cfg : KeyByConfig τ κ) {bound : Nat}
    {st : KeyByState τ} (hInv : KBInv cfg bound st) :
    ∃ st' msgs, flush cfg st = some (st', msgs) ∧
      KBInv cfg bound st' ∧
      TraceOk st st' msgs ∧
      (∀ d, d < cfg.num_dests → st'.batches_output d = none) ∧
      (∀ m ∈ msgs, m.isPunct = false) ∧
      (0 < cfg.size →
        msgs = (List.range cfg.num_dests).filterMap
          (fun i => (st.batches_output i).map (fun b => Msg.batch b i))) ∧
      (cfg.size = 0 → msgs = []) := by
  by_cases hsz : 0 < cfg.size
  · obtain ⟨st', msgs, hrun, hInv', htr, hbz, hbo, hmc, hmp⟩ :=
      flushLoop_sound cfg (List.range cfg.num_dests) st (List.nodup_range cfg.num_dests) hInv
    refine ⟨st', msgs, ?_, hInv', htr, ?_, hmp, fun _ => hmc, ?_⟩
    · simp only [flush, if_pos hsz, hrun]
    · intro d hd
      exact hbz d (List.mem_range.mpr hd)
    · intro h
      rw [h] at hsz
      cases hsz
  · have hsz0 : cfg.size = 0 := Nat.eq_zero_of_not_pos hsz
    refine ⟨st, [], ?_, hInv, traceOk_nil fun d => rfl, ?_, ?_, ?_, fun _ => rfl⟩
    · simp only [flush, if_neg hsz]
    · intro d _
      exact hInv.2.1 hsz0 d
    · intro m hm
      simp at hm
    · intro h
      exact absurd h hsz

theorem generate_punctuation_sound {τ κ : Type} [Inhabited τ] (cfg : KeyByConfig τ κ)
    {bound : Nat} {st : KeyByState τ} (wm : Nat) (tE : Bool)
    (hInv : KBInv cfg bound st) (hbw : bound ≤ wm) :
    ∃ st' msgs, generate_punctuation cfg st wm tE = some (st', msgs) ∧
      KBInv cfg wm st' ∧
      TraceOk st st' msgs ∧
      (msgs.filter Msg.isPunct).map Msg.dest = (if tE then zeroDelivered cfg st else []) ∧
      (∀ m ∈ msgs, m.isPunct = true →
        m.wm = wm ∧ m.deleteCounter = (zeroDelivered cfg st).length) ∧
      (∀ m ∈ msgs, m.isPunct = false →
        ∃ b, st.batches_output m.dest = some b ∧ m = Msg.batch b m.dest) ∧
      (tE = true → ∀ d, st'.delivered d = if d < cfg.num_dests then 0 else st.delivered d) ∧
      (tE = false → st' = st ∧ msgs = []) := by
  cases tE with
  | false =>
      refine ⟨st, [], rfl, kbinv_mono hInv hbw, traceOk_nil fun d => rfl, ?_, ?_, ?_, ?_, ?_⟩
      · simp
      · intro m hm
        simp at hm
      · intro m hm
        simp at hm
      · intro h
        cases h
      · intro _
        exact ⟨rfl, rfl⟩
  | true =>
      obtain ⟨st1, idxs, msgs1, hrun1, hInv1, htr1, hidxs, hdlv, hbz, hbo, hmsg⟩ :=
        gpScan_sound cfg (List.range cfg.num_dests) st (List.nodup_range cfg.num_dests) hInv
      have hzd : zeroDelivered cfg st = idxs := by
        rw [hidxs]
        rfl
      have hInv1w : KBInv cfg wm st1 := kbinv_mono hInv1 hbw
      by_cases h0 : idxs = []
      · have hm1 : msgs1 = [] := by
          rcases msgs1 with _ | ⟨m, ms⟩
          · rfl
          · obtain ⟨_, g2, _⟩ := hmsg m (List.mem_cons_self m ms)
            rw [h0] at g2
            simp at g2
        subst hm1
        refine ⟨st1, [], ?_, hInv1w, htr1, ?_, ?_, ?_, ?_, by intro h; cases h⟩
        · simp only [generate_punctuation, hrun1, if_pos h0]
          simp
        · rw [hzd, h0]
          simp
        · intro m hm
          simp at hm
        · intro m hm
          simp at hm
        · intro _ d
          rw [hdlv d]
          by_cases hd : d < cfg.num_dests <;> simp [hd, List.mem_range]
      · have hlen : 0 < idxs.length := List.length_pos.mpr h0
        have hdc : 1 + (idxs.length - 1) = idxs.length := by omega
        by_cases hsz : cfg.size = 0
        · set punc := mkPuncSingle τ cfg.num_dests wm idxs.length with hpn
          have hmk : ∀ i, (Msg.single punc i).dest = i ∧ (Msg.single punc i).wm = wm := by
            intro i
            refine ⟨rfl, ?_⟩
            show punc.getWatermark = wm
            rw [hpn, mkPuncSingle_getWatermark]
          have hle1 : ∀ i ∈ idxs, st1.last_sent_wms i ≤ wm := fun i _ => hInv1w.1 i
          obtain ⟨st2, hrun2, hlast2, hdel2, hbat2, htr2⟩ :=
            puncLoop_sound wm (fun i => Msg.single punc i) hmk idxs st1 hle1
          refine ⟨st2, msgs1 ++ idxs.map (fun i => Msg.single punc i), ?_, ?_, ?_, ?_, ?_, ?_, ?_,
            by intro h; cases h⟩
          · simp only [generate_punctuation, hrun1, if_neg h0, if_pos hsz, ← hpn, hrun2]
            simp
          · refine ⟨?_, ?_, ?_⟩
            · intro d
              rw [hlast2 d]
              by_cases hd : d ∈ idxs
              · simp [hd]
              · simp [hd]
                exact hInv1w.1 d
            · intro h d
              rw [hbat2]
              exact hInv1w.2.1 h d
            · intro d b' hb'
              rw [hbat2] at hb'
              by_cases hd : d ∈ idxs
              · rw [hbz d hd] at hb'
                cases hb'
              · obtain ⟨g1, g2, g3, g4, g5, g6⟩ := hInv1w.2.2 d b' hb'
                rw [hlast2 d]
                simp [hd]
                exact ⟨g1, g2, g3, g4, g5, g6⟩
          · exact traceOk_append htr1 htr2
          · rw [List.filter_append, List.map_append]
            have hf1 : msgs1.filter Msg.isPunct = [] := by
              apply List.filter_eq_nil_iff.mpr
              intro m hm
              obtain ⟨g1, _, _⟩ := hmsg m hm
              simp [g1]
            have hf2 : (idxs.map (fun i => Msg.single punc i)).filter Msg.isPunct
                = idxs.map (fun i => Msg.single punc i) := by
              apply List.filter_eq_self.mpr
              intro m hm
              obtain ⟨i, _, rfl⟩ := List.mem_map.mp hm
              show punc.isPunctuation = true
              rw [hpn]
              rfl
            rw [hf1, hf2, hzd]
            simp only [List.nil_append, List.map_map]
            exact List.map_id idxs
          · intro m hm hp
            rcases List.mem_append.mp hm with hm1 | hm2
            · obtain ⟨g1, _, _⟩ := hmsg m hm1
              rw [g1] at hp
              cases hp
            · obtain ⟨i, _, rfl⟩ := List.mem_map.mp hm2
              refine ⟨?_, ?_⟩
              · show punc.getWatermark = wm
                rw [hpn, mkPuncSingle_getWatermark]
              · show punc.delete_counter = (zeroDelivered cfg st).length
                rw [hzd, hpn]
                show 1 + (idxs.length - 1) = idxs.length
                exact hdc
          · intro m hm hp
            rcases List.mem_append.mp hm with hm1 | hm2
            · obtain ⟨g1, g2, g3⟩ := hmsg m hm1
              exact g3
            · obtain ⟨i, _, rfl⟩ := List.mem_map.mp hm2
              have : punc.isPunctuation = true := by
                rw [hpn]
                rfl
              rw [show (Msg.single punc i).isPunct = punc.isPunctuation from rfl, this] at hp
              cases hp
          · intro _ d
            rw [hdel2, hdlv d]
            by_cases hd : d < cfg.num_dests <;> simp [hd, List.mem_range]
        · set punc := mkPuncBatch τ cfg.num_dests wm idxs.length with hpn
          have hmk : ∀ i, (Msg.batch punc i).dest = i ∧ (Msg.batch punc i).wm = wm := by
            intro i
            refine ⟨rfl, ?_⟩
            show punc.getWatermark = wm
            rw [hpn, mkPuncBatch_getWatermark]
          have hle1 : ∀ i ∈ idxs, st1.last_sent_wms i ≤ wm := fun i _ => hInv1w.1 i
          obtain ⟨st2, hrun2, hlast2, hdel2, hbat2, htr2⟩ :=
            puncLoop_sound wm (fun i => Msg.batch punc i) hmk idxs st1 hle1
          refine ⟨st2, msgs1 ++ idxs.map (fun i => Msg.batch punc i), ?_, ?_, ?_, ?_, ?_, ?_, ?_,
            by intro h; cases h⟩
          · simp only [generate_punctuation, hrun1, if_neg h0, if_neg hsz, ← hpn, hrun2]
            simp
          · refine ⟨?_, ?_, ?_⟩
            · intro d
              rw [hlast2 d]
              by_cases hd : d ∈ idxs
              · simp [hd]
              · simp [hd]
                exact hInv1w.1 d
            · intro h d
              rw [hbat2]
              exact hInv1w.2.1 h d
            · intro d b' hb'
              rw [hbat2] at hb'
              by_cases hd : d ∈ idxs
              · rw [hbz d hd] at hb'
                cases hb'
              · obtain ⟨g1, g2, g3, g4, g5, g6⟩ := hInv1w.2.2 d b' hb'
                rw [hlast2 d]
                simp [hd]
                exact ⟨g1, g2, g3, g4, g5, g6⟩
          · exact traceOk_append htr1 htr2
          · rw [List.filter_append, List.map_append]
            have hf1 : msgs1.filter Msg.isPunct = [] := by
              apply List.filter_eq_nil_iff.mpr
              intro m hm
              obtain ⟨g1, _, _⟩ := hmsg m hm
              simp [g1]
            have hf2 : (idxs.map (fun i => Msg.batch punc i)).filter Msg.isPunct
                = idxs.map (fun i => Msg.batch punc i) := by
              apply List.filter_eq_self.mpr
              intro m hm
              obtain ⟨i, _, rfl⟩ := List.mem_map.mp hm
              show punc.isPunctuation = true
              rw [hpn]
              rfl
            rw [hf1, hf2, hzd]
            simp only [List.nil_append, List.map_map]
            exact List.map_id idxs
          · intro m hm hp
            rcases List.mem_append.mp hm with hm1 | hm2
            · obtain ⟨g1, _, _⟩ := hmsg m hm1
              rw [g1] at hp
              cases hp
            · obtain ⟨i, _, rfl⟩ := List.mem_map.mp hm2
              refine ⟨?_, ?_⟩
              · show punc.getWatermark = wm
                rw [hpn, mkPuncBatch_getWatermark]
              · show punc.delete_counter = (zeroDelivered cfg st).length
                rw [hzd, hpn]
                show 1 + (idxs.length - 1) = idxs.length
                exact hdc
          · intro m hm hp
            rcases List.mem_append.mp hm with hm1 | hm2
            · obtain ⟨g1, g2, g3⟩ := hmsg m hm1
              exact g3
            · obtain ⟨i, _, rfl⟩ := List.mem_map.mp hm2
              have : punc.isPunctuation = true := by
                rw [hpn]
                rfl
              rw [show (Msg.batch punc i).isPunct = punc.isPunctuation from rfl, this] at hp
              cases hp
          · intro _ d
            rw [hdel2, hdlv d]
            by_cases hd : d < cfg.num_dests <;> simp [hd, List.mem_range]

theorem routing_sound {τ κ : Type} [Inhabited τ] (cfg : KeyByConfig τ κ)
    (hsz : cfg.size = 0) {bound : Nat} {st : KeyByState τ}
    (out : Single_t τ) (tE : Bool) (hInv : KBInv cfg bound st)
    (hbw : bound ≤ out.getWatermark) (hop : out.isPunctuation = false) :
    ∃ st' msgs1,
      routing cfg st out tE
        = some (st', msgs1 ++
            [Msg.single out (cfg.hashf (cfg.key_extr out.tuple) % cfg.num_dests)]) ∧
      KBInv cfg out.getWatermark st' ∧
      TraceOk st st' (msgs1 ++
        [Msg.single out (cfg.hashf (cfg.key_extr out.tuple) % cfg.num_dests)]) ∧
      ((msgs1 ++ [Msg.single out (cfg.hashf (cfg.key_extr out.tuple) % cfg.num_dests)]).filter
          Msg.isPunct).map Msg.dest
        = (if (cfg.execution_mode = Execution_Mode_t.DEFAULT ∧
               st.received_inputs % cfg.wmAmount = 0) ∧ tE = true
           then zeroDelivered cfg st else []) ∧
      (∀ m ∈ msgs1, m.isPunct = true →
        m.wm = out.getWatermark ∧ m.deleteCounter = (zeroDelivered cfg st).length) := by
  have hgp : ∃ st1 msgs1, (if cfg.execution_mode = Execution_Mode_t.DEFAULT ∧
        st.received_inputs % cfg.wmAmount = 0 then
      generate_punctuation cfg st out.getWatermark tE
    else some (st, [])) = some (st1, msgs1) ∧
      KBInv cfg out.getWatermark st1 ∧
      TraceOk st st1 msgs1 ∧
      (msgs1.filter Msg.isPunct).map Msg.dest
        = (if (cfg.execution_mode = Execution_Mode_t.DEFAULT ∧
               st.received_inputs % cfg.wmAmount = 0) ∧ tE = true
           then zeroDelivered cfg st else []) ∧
      (∀ m ∈ msgs1, m.isPunct = true →
        m.wm = out.getWatermark ∧ m.deleteCounter = (zeroDelivered cfg st).length) := by
    by_cases hg : cfg.execution_mode = Execution_Mode_t.DEFAULT ∧
        st.received_inputs % cfg.wmAmount = 0
    · obtain ⟨st1, msgs1, hrun, hInv1, htr, hflt, hpp, _, _, _⟩ :=
        generate_punctuation_sound cfg out.getWatermark tE hInv hbw
      refine ⟨st1, msgs1, ?_, hInv1, htr, ?_, hpp⟩
      · rw [if_pos hg, hrun]
      · rw [hflt]
        cases tE with
        | false => simp [hg]
        | true => simp [hg]
    · refine ⟨st, [], ?_, kbinv_mono hInv hbw, traceOk_nil fun d => rfl, ?_, ?_⟩
      · rw [if_neg hg]
      · simp [hg]
      · intro m hm
        simp at hm
  obtain ⟨st1, msgs1, hrun1, hInv1, htr1, hflt1, hpp1⟩ := hgp
  set dst := cfg.hashf (cfg.key_extr out.tuple) % cfg.num_dests with hdst
  have hle : st1.last_sent_wms dst ≤ out.getWatermark := hInv1.1 dst
  set st2 : KeyByState τ :=
    { st1 with
        last_sent_wms := upd st1.last_sent_wms dst out.getWatermark
        delivered := upd st1.delivered dst (st1.delivered dst + 1) } with hst2
  have hInv2 : KBInv cfg out.getWatermark st2 := by
    refine ⟨?_, ?_, ?_⟩
    · intro d
      by_cases hd : d = dst
      · subst hd
        simp only [hst2]
        rw [upd_same]
      · simp only [hst2]
        rw [upd_ne _ _ hd]
        exact hInv1.1 d
    · intro h d
      exact hInv1.2.1 h d
    · intro d b' hb'
      have := hInv1.2.1 hsz d
      simp only [hst2] at hb'
      rw [this] at hb'
      cases hb'
  refine ⟨st2, msgs1, ?_, hInv2, ?_, ?_, hpp1⟩
  · simp only [routing, hrun1, ← hdst, if_pos hle, ← hst2]
  · refine traceOk_append htr1 (traceOk_single ?_ ?_)
    · exact hle
    · intro d
      show st2.last_sent_wms d = if d = dst then out.getWatermark else st1.last_sent_wms d
      by_cases hd : d = dst
      · subst hd
        simp only [hst2]
        rw [upd_same]
        simp
      · simp only [hst2]
        rw [upd_ne _ _ hd, if_neg hd]
  · rw [List.filter_append]
    have hpl : ([Msg.single out dst].filter Msg.isPunct) = [] := by
      simp [Msg.isPunct, hop]
    rw [hpl, List.append_nil, hflt1]

theorem routing_batched_sound {τ κ : Type} [Inhabited τ] (cfg : KeyByConfig τ κ)
    (hsz : 0 < cfg.size) {bound : Nat} {st : KeyByState τ}
    (t : τ) (ts wm : Nat) (tE : Bool) (hInv : KBInv cfg bound st) (hbw : bound ≤ wm) :
    ∃ st' msgs1 b1,
      b1.items.getLast? = some (t, ts, wm) ∧
      0 < b1.getSize ∧ b1.getSize ≤ cfg.size ∧ b1.isPunctuation = false ∧
      ((b1.getSize = cfg.size ∧
          routing_batched cfg st t ts wm tE
            = some (st', msgs1 ++ [Msg.batch b1 (cfg.hashf (cfg.key_extr t) % cfg.num_dests)]) ∧
          st'.batches_output (cfg.hashf (cfg.key_extr t) % cfg.num_dests) = none ∧
          TraceOk st st'
            (msgs1 ++ [Msg.batch b1 (cfg.hashf (cfg.key_extr t) % cfg.num_dests)])) ∨
       (b1.getSize < cfg.size ∧
          routing_batched cfg st t ts wm tE = some (st', msgs1) ∧
          st'.batches_output (cfg.hashf (cfg.key_extr t) % cfg.num_dests) = some b1 ∧
          TraceOk st st' msgs1)) ∧
      KBInv cfg wm st' ∧
      (msgs1.filter Msg.isPunct).map Msg.dest
        = (if (cfg.execution_mode = Execution_Mode_t.DEFAULT ∧
               st.received_inputs % cfg.wmAmount = 0) ∧ tE = true
           then zeroDelivered cfg st else []) ∧
      (∀ m ∈ msgs1, m.isPunct = true →
        m.wm = wm ∧ m.deleteCounter = (zeroDelivered cfg st).length) := by
  have hgp : ∃ st1 msgs1, (if cfg.execution_mode = Execution_Mode_t.DEFAULT ∧
        st.received_inputs % cfg.wmAmount = 0 then
      generate_punctuation cfg st wm tE
    else some (st, [])) = some (st1, msgs1) ∧
      KBInv cfg wm st1 ∧
      TraceOk st st1 msgs1 ∧
      (msgs1.filter Msg.isPunct).map Msg.dest
        = (if (cfg.execution_mode = Execution_Mode_t.DEFAULT ∧
               st.received_inputs % cfg.wmAmount = 0) ∧ tE = true
           then zeroDelivered cfg st else []) ∧
      (∀ m ∈ msgs1, m.isPunct = true →
        m.wm = wm ∧ m.deleteCounter = (zeroDelivered cfg st).length) := by
    by_cases hg : cfg.execution_mode = Execution_Mode_t.DEFAULT ∧
        st.received_inputs % cfg.wmAmount = 0
    · obtain ⟨st1, msgs1, hrun, hInv1, htr, hflt, hpp, _, _, _⟩ :=
        generate_punctuation_sound cfg wm tE hInv hbw
      refine ⟨st1, msgs1, ?_, hInv1, htr, ?_, hpp⟩
      · rw [if_pos hg, hrun]
      · rw [hflt]
        cases tE with
        | false => simp [hg]
        | true => simp [hg]
    · refine ⟨st, [], ?_, kbinv_mono hInv hbw, traceOk_nil fun d => rfl, ?_, ?_⟩
      · rw [if_neg hg]
      · simp [hg]
      · intro m hm
        simp at hm
  obtain ⟨st1, msgs1, hrun1, hInv1, htr1, hflt1, hpp1⟩ := hgp
  set dst := cfg.hashf (cfg.key_extr t) % cfg.num_dests with hdst
  set b0 : Batch_CPU_t τ := (match st1.batches_output dst with
    | none => allocateBatch_CPU_t τ
    | some b => b) with hb0
  set b1 : Batch_CPU_t τ := b0.addTuple t ts wm with hb1
  have hlastb1 : b1.items.getLast? = some (t, ts, wm) := by
    simp [hb1, Batch_CPU_t.addTuple]
  have hfacts : 0 < b1.getSize ∧ b1.getSize ≤ cfg.size ∧ b1.isPunctuation = false ∧
      b1.watermarks.length = 1 ∧ st1.last_sent_wms dst ≤ b1.getWatermark ∧
      b1.getWatermark ≤ wm := by
    cases hpend : st1.batches_output dst with
    | none =>
        have hb0e : b0 = allocateBatch_CPU_t τ := by
          rw [hb0, hpend]
        have hgw : b1.getWatermark = wm := by
          rw [hb1, hb0e]
          simp [allocateBatch_CPU_t, Batch_CPU_t.addTuple, Batch_CPU_t.getWatermark]
        refine ⟨?_, ?_, ?_, ?_, ?_, ?_⟩
        · rw [hb1, hb0e]
          simp [allocateBatch_CPU_t, Batch_CPU_t.addTuple, Batch_CPU_t.getSize]
        · rw [hb1, hb0e]
          simp [allocateBatch_CPU_t, Batch_CPU_t.addTuple, Batch_CPU_t.getSize]
          exact hsz
        · rw [hb1, hb0e]
          simp [allocateBatch_CPU_t, Batch_CPU_t.addTuple]
        · rw [hb1, hb0e]
          simp [allocateBatch_CPU_t, Batch_CPU_t.addTuple]
        · rw [hgw]
          exact hInv1.1 dst
        · rw [hgw]
    | some b =>
        obtain ⟨g1, g2, g3, g4, g5, g6⟩ := hInv1.2.2 dst b hpend
        have hb0e : b0 = b := by
          rw [hb0, hpend]
        obtain ⟨w, hw⟩ : ∃ w, b.watermarks = [w] := by
          cases hwm : b.watermarks with
          | nil => rw [hwm] at g4; cases g4
          | cons w rest =>
              rw [hwm] at g4
              simp at g4
              rw [g4]
              exact ⟨w, rfl⟩
        have hgw : b1.getWatermark = min w wm := by
          rw [hb1, hb0e]
          simp [Batch_CPU_t.addTuple, hw, Batch_CPU_t.getWatermark]
        have hbw0 : b.getWatermark = w := by
          simp [Batch_CPU_t.getWatermark, hw]
        refine ⟨?_, ?_, ?_, ?_, ?_, ?_⟩
        · rw [hb1, hb0e]
          simp [Batch_CPU_t.addTuple, Batch_CPU_t.getSize]
        · rw [hb1, hb0e]
          show (b.items ++ [(t, ts, wm)]).length ≤ cfg.size
          simp
          exact g2
        · rw [hb1, hb0e]
          simp [Batch_CPU_t.addTuple]
          exact g3
        · rw [hb1, hb0e]
          simp [Batch_CPU_t.addTuple, hw]
        · rw [hgw]
          refine le_min ?_ ?_
          · rw [← hbw0]
            exact g5
          · exact (hInv1.1 dst).trans (le_refl wm)
        · rw [hgw]
          exact min_le_right w wm

  obtain ⟨hpos1, hle1, hpunc1, hwms1, hlw1, hgw1⟩ := hfacts
  by_cases hfull : b1.getSize = cfg.size
  · set st2 : KeyByState τ :=
      { st1 with
          last_sent_wms := upd st1.last_sent_wms dst b1.getWatermark
          delivered := upd st1.delivered dst (st1.delivered dst + 1)
          batches_output := upd st1.batches_output dst none } with hst2
    have hInv2 : KBInv cfg wm st2 := by
      refine ⟨?_, ?_, ?_⟩
      · intro d
        by_cases hd : d = dst
        · subst hd
          simp only [hst2]
          rw [upd_same]
          exact hgw1
        · simp only [hst2]
          rw [upd_ne _ _ hd]
          exact hInv1.1 d
      · intro h
        rw [h] at hsz
        cases hsz
      · intro d b' hb'
        by_cases hd : d = dst
        · subst hd
          simp only [hst2] at hb'
          rw [upd_same] at hb'
          cases hb'
        · simp only [hst2] at hb' ⊢
          rw [upd_ne _ _ hd] at hb'
          obtain ⟨g1, g2, g3, g4, g5, g6⟩ := hInv1.2.2 d b' hb'
          rw [upd_ne _ _ hd]
          exact ⟨g1, g2, g3, g4, g5, g6⟩
    refine ⟨st2, msgs1, b1, hlastb1, hpos1, hle1, hpunc1, Or.inl ⟨hfull, ?_, ?_, ?_⟩,
      hInv2, hflt1, hpp1⟩
    · simp only [routing_batched, hrun1, ← hdst, ← hb0, ← hb1, if_pos hfull, if_pos hlw1,
        ← hst2]
    · simp only [hst2]
      rw [upd_same]
    · refine traceOk_append htr1 (traceOk_single ?_ ?_)
      · exact hlw1
      · intro d
        show st2.last_sent_wms d = if d = dst then b1.getWatermark else st1.last_sent_wms d
        by_cases hd : d = dst
        · subst hd
          simp only [hst2]
          rw [upd_same]
          simp
        · simp only [hst2]
          rw [upd_ne _ _ hd, if_neg hd]
  · set st2 : KeyByState τ :=
      { st1 with batches_output := upd st1.batches_output dst (some b1) } with hst2
    have hInv2 : KBInv cfg wm st2 := by
      refine ⟨?_, ?_, ?_⟩
      · intro d
        exact hInv1.1 d
      · intro h
        rw [h] at hsz
        cases hsz
      · intro d b' hb'
        by_cases hd : d = dst
        · subst hd
          simp only [hst2] at hb'
          rw [upd_same] at hb'
          cases hb'
          exact ⟨hpos1, lt_of_le_of_ne hle1 hfull, hpunc1, hwms1, hlw1, hgw1⟩
        · simp only [hst2] at hb'
          rw [upd_ne _ _ hd] at hb'
          exact hInv1.2.2 d b' hb'
    refine ⟨st2, msgs1, b1, hlastb1, hpos1, hle1, hpunc1, Or.inr
      ⟨lt_of_le_of_ne hle1 hfull, ?_, ?_, ?_⟩, hInv2, hflt1, hpp1⟩
    · simp only [routing_batched, hrun1, ← hdst, ← hb0, ← hb1, if_neg hfull, ← hst2]
    · simp only [hst2]
      rw [upd_same]
    · exact htr1

theorem propagate_punctuation_sound {τ κ : Type} [Inhabited τ] (cfg : KeyByConfig τ κ)
    {bound : Nat} {st : KeyByState τ} (wm : Nat)
    (hInv : KBInv cfg bound st) (hbw : bound ≤ wm) :
    ∃ st' fmsgs, propagate_punctuation cfg st wm = some (st', fmsgs ++ puncMsgsOf cfg wm) ∧
      KBInv cfg wm st' ∧
      TraceOk st st' (fmsgs ++ puncMsgsOf cfg wm) ∧
      (∀ m ∈ fmsgs, m.isPunct = false) ∧
      (∀ d, d < cfg.num_dests → st'.batches_output d = none) ∧
      (0 < cfg.size → fmsgs = (List.range cfg.num_dests).filterMap
        (fun i => (st.batches_output i).map (fun b => Msg.batch b i))) ∧
      (cfg.size = 0 → fmsgs = []) := by
  obtain ⟨st1, fmsgs, hrunF, hInv1, htrF, hbzF, hmpF, hmcF, hm0F⟩ := flush_sound cfg hInv
  have hInv1w : KBInv cfg wm st1 := kbinv_mono hInv1 hbw
  by_cases hsz : cfg.size = 0
  · set punc := mkPuncSingle τ cfg.num_dests wm cfg.num_dests with hpn
    have hmk : ∀ i, (Msg.single punc i).dest = i ∧ (Msg.single punc i).wm = wm := by
      intro i
      refine ⟨rfl, ?_⟩
      show punc.getWatermark = wm
      rw [hpn, mkPuncSingle_getWatermark]
    have hle : ∀ i ∈ List.range cfg.num_dests, st1.last_sent_wms i ≤ wm :=
      fun i _ => hInv1w.1 i
    obtain ⟨st2, hrun2, hlast2, hdel2, hbat2, htr2⟩ :=
      puncLoop_sound wm (fun i => Msg.single punc i) hmk (List.range cfg.num_dests) st1 hle
    have hpm : puncMsgsOf cfg wm
        = (List.range cfg.num_dests).map (fun i => Msg.single punc i) := by
      rw [puncMsgsOf, if_pos hsz, hpn]
    refine ⟨st2, fmsgs, ?_, ?_, ?_, hmpF, ?_, hmcF, hm0F⟩
    · simp only [propagate_punctuation, hrunF, if_pos hsz, ← hpn, hrun2]
      rw [hpm]
      rfl
    · refine ⟨?_, ?_, ?_⟩
      · intro d
        rw [hlast2 d]
        by_cases hd : d ∈ List.range cfg.num_dests
        · simp [hd]
        · simp [hd]
          exact hInv1w.1 d
      · intro h d
        rw [hbat2]
        exact hInv1.2.1 h d
      · intro d b' hb'
        rw [hbat2] at hb'
        by_cases hd : d < cfg.num_dests
        · rw [hbzF d hd] at hb'
          cases hb'
        · obtain ⟨g1, g2, g3, g4, g5, g6⟩ := hInv1w.2.2 d b' hb'
          rw [hlast2 d]
          simp [List.mem_range, hd]
          exact ⟨g1, g2, g3, g4, g5, g6⟩
    · rw [hpm]
      exact traceOk_append htrF htr2
    · intro d hd
      rw [hbat2]
      exact hbzF d hd
  · set punc := mkPuncBatch τ cfg.num_dests wm cfg.num_dests with hpn
    have hmk : ∀ i, (Msg.batch punc i).dest = i ∧ (Msg.batch punc i).wm = wm := by
      intro i
      refine ⟨rfl, ?_⟩
      show punc.getWatermark = wm
      rw [hpn, mkPuncBatch_getWatermark]
    have hle : ∀ i ∈ List.range cfg.num_dests, st1.last_sent_wms i ≤ wm :=
      fun i _ => hInv1w.1 i
    obtain ⟨st2, hrun2, hlast2, hdel2, hbat2, htr2⟩ :=
      puncLoop_sound wm (fun i => Msg.batch punc i) hmk (List.range cfg.num_dests) st1 hle
    have hpm : puncMsgsOf cfg wm
        = (List.range cfg.num_dests).map (fun i => Msg.batch punc i) := by
      rw [puncMsgsOf, if_neg hsz, hpn]
    refine ⟨st2, fmsgs, ?_, ?_, ?_, hmpF, ?_, hmcF, hm0F⟩
    · simp only [propagate_punctuation, hrunF, if_neg hsz, ← hpn, hrun2]
      rw [hpm]
      rfl
    · refine ⟨?_, ?_, ?_⟩
      · intro d
        rw [hlast2 d]
        by_cases hd : d ∈ List.range cfg.num_dests
        · simp [hd]
        · simp [hd]
          exact hInv1w.1 d
      · intro h d
        rw [hbat2]
        exact hInv1.2.1 h d
      · intro d b' hb'
        rw [hbat2] at hb'
        by_cases hd : d < cfg.num_dests
        · rw [hbzF d hd] at hb'
          cases hb'
        · obtain ⟨g1, g2, g3, g4, g5, g6⟩ := hInv1w.2.2 d b' hb'
          rw [hlast2 d]
          simp [List.mem_range, hd]
          exact ⟨g1, g2, g3, g4, g5, g6⟩
    · rw [hpm]
      exact traceOk_append htrF htr2
    · intro d hd
      rw [hbat2]
      exact hbzF d hd

theorem allocateSingle_t_getWatermark (t : τ) (ident ts wm : Nat) :
    (allocateSingle_t t ident ts wm).getWatermark = wm := rfl

theorem stepKB_sound {τ κ : Type} [Inhabited τ] (cfg : KeyByConfig τ κ)
    {bound : Nat} {st : KeyByState τ} (e : KBEvent τ)
    (hInv : KBInv cfg bound st) (hwm : ∀ w, eventWm? e = some w → bound ≤ w) :
    ∃ st' msgs, stepKB cfg st e = some (st', msgs) ∧
      KBInv cfg ((eventWm? e).getD bound) st' ∧ TraceOk st st' msgs := by
  cases e with
  | emitEv t ident ts wm b =>
      have hbw : bound ≤ wm := hwm wm rfl
      have hInv0 : KBInv cfg bound
          { st with received_inputs := st.received_inputs + 1 } := hInv
      by_cases hsz : cfg.size = 0
      · obtain ⟨st', msgs1, hrun, hInv', htr, _, _⟩ :=
          routing_sound cfg hsz (allocateSingle_t t ident ts wm) b hInv0
            (by rw [allocateSingle_t_getWatermark]; exact hbw) rfl
        refine ⟨st', _, ?_, ?_, traceOk_eq_left rfl htr⟩
        · simp only [stepKB, emit, if_pos hsz]
          exact hrun
        · rw [show (allocateSingle_t t ident ts wm).getWatermark = wm from rfl] at hInv'
          exact hInv'
      · have hsz' : 0 < cfg.size := Nat.pos_of_ne_zero hsz
        obtain ⟨st', msgs1, b1, _, _, _, _, hdisj, hInv', _, _⟩ :=
          routing_batched_sound cfg hsz' t ts wm b hInv0 hbw
        rcases hdisj with ⟨_, hrun, _, htr⟩ | ⟨_, hrun, _, htr⟩
        · refine ⟨st', _, ?_, hInv', traceOk_eq_left rfl htr⟩
          simp only [stepKB, emit, if_neg hsz]
          exact hrun
        · refine ⟨st', _, ?_, hInv', traceOk_eq_left rfl htr⟩
          simp only [stepKB, emit, if_neg hsz]
          exact hrun
  | puncEv wm =>
      have hbw : bound ≤ wm := hwm wm rfl
      obtain ⟨st', fmsgs, hrun, hInv', htr, _, _, _, _⟩ :=
        propagate_punctuation_sound cfg wm hInv hbw
      exact ⟨st', _, hrun, hInv', htr⟩
  | flushEv =>
      obtain ⟨st', msgs, hrun, hInv', htr, _, _, _, _⟩ := flush_sound cfg hInv
      exact ⟨st', msgs, hrun, hInv', htr⟩

theorem runKB_sound {τ κ : Type} [Inhabited τ] (cfg : KeyByConfig τ κ) :
    ∀ (es : List (KBEvent τ)) (bound : Nat) (st : KeyByState τ),
      KBInv cfg bound st →
      List.Chain' (· ≤ ·) (bound :: es.filterMap eventWm?) →
      ∃ st' msgs, runKB cfg st es = some (st', msgs) ∧
        KBInv cfg (lastWm bound (es.filterMap eventWm?)) st' ∧
        TraceOk st st' msgs
  | [], bound, st => by
      intro hInv _
      exact ⟨st, [], rfl, hInv, traceOk_nil fun d => rfl⟩
  | e :: es, bound, st => by
      intro hInv hch
      cases hea : eventWm? (τ := τ) e with
      | some w =>
          have hfm : (e :: es).filterMap eventWm? = w :: es.filterMap eventWm? := by
            simp [List.filterMap_cons, hea]
          rw [hfm] at hch
          rw [List.chain'_cons] at hch
          obtain ⟨st1, msgs1, hstep, hInv1, htr1⟩ := stepKB_sound cfg e hInv
            (fun w' hw' => by rw [hea] at hw'; cases hw'; exact hch.1)
          rw [hea] at hInv1
          obtain ⟨st2, msgs2, hrun, hInv2, htr2⟩ :=
            runKB_sound cfg es w st1 hInv1 hch.2
          refine ⟨st2, msgs1 ++ msgs2, ?_, ?_, traceOk_append htr1 htr2⟩
          · simp only [runKB, hstep, hrun]
          · rw [hfm, lastWm_cons]
            exact hInv2
      | none =>
          have hfm : (e :: es).filterMap eventWm? = es.filterMap eventWm? := by
            simp [List.filterMap_cons, hea]
          rw [hfm] at hch
          obtain ⟨st1, msgs1, hstep, hInv1, htr1⟩ := stepKB_sound cfg e hInv
            (fun w' hw' => by rw [hea] at hw'; cases hw')
          rw [hea] at hInv1
          have hch1 : List.Chain' (· ≤ ·) (bound :: es.filterMap eventWm?) := hch
          obtain ⟨st2, msgs2, hrun, hInv2, htr2⟩ :=
            runKB_sound cfg es bound st1 hInv1 hch1
          refine ⟨st2, msgs1 ++ msgs2, ?_, ?_, traceOk_append htr1 htr2⟩
          · simp only [runKB, hstep, hrun]
          · rw [hfm]
            exact hInv2

/-- C1: for every KeyBy emitter fed a stimulus sequence whose watermarks are
non-decreasing, the whole run succeeds (every monotonicity assertion against
last_sent_wms holds on all send paths: routing, batched routing, flush, and
punctuation propagation and generation), the sequence of watermarks carried
by the envelopes sent to each destination d (payload singles, batches and
punctuations) is non-decreasing, and last_sent_wms d always equals the last
watermark sent to d. -/
theorem C1_keyby_per_destination_wm_monotone {τ κ : Type} [Inhabited τ]
    (cfg : KeyByConfig τ κ) (es : List (KBEvent τ))
    (hch : List.Chain' (· ≤ ·) (es.filterMap eventWm?)) :
    ∃ st' msgs, runKB cfg (initKeyBy τ) es = some (st', msgs) ∧
      (∀ d, List.Chain' (· ≤ ·) (wmsTo d msgs)) ∧
      (∀ d, st'.last_sent_wms d = lastWm 0 (wmsTo d msgs)) := by
  have hch0 : List.Chain' (· ≤ ·) (0 :: es.filterMap eventWm?) := by
    cases h : es.filterMap (eventWm? (τ := τ)) with
    | nil => simp
    | cons w rest =>
        rw [h] at hch
        rw [List.chain'_cons]
        exact ⟨Nat.zero_le w, hch⟩
  obtain ⟨st', msgs, hrun, _, htr⟩ := runKB_sound cfg es 0 (initKeyBy τ) (kbinv_init cfg 0) hch0
  refine ⟨st', msgs, hrun, ?_, ?_⟩
  · intro d
    exact ((htr d).1).tail
  · intro d
    exact (htr d).2

/-- Witness: the monotonicity theorem applied to a concrete run with two
tuples and a punctuation through a two-destination per-tuple KeyBy emitter. -/
theorem C1_keyby_per_destination_wm_monotone_witness :
    List.Chain' (· ≤ ·)
      (([KBEvent.emitEv 3 0 0 1 false, KBEvent.emitEv 4 1 0 2 false,
         KBEvent.puncEv 5] : List (KBEvent Nat)).filterMap eventWm?) ∧
    ∃ st' msgs, runKB cfgPerTuple (initKeyBy Nat)
        [KBEvent.emitEv 3 0 0 1 false, KBEvent.emitEv 4 1 0 2 false,
         KBEvent.puncEv 5] = some (st', msgs) ∧
      (∀ d, List.Chain' (· ≤ ·) (wmsTo d msgs)) ∧
      (∀ d, st'.last_sent_wms d = lastWm 0 (wmsTo d msgs)) :=
  have hc : List.Chain' (· ≤ ·)
      (([KBEvent.emitEv 3 0 0 1 false, KBEvent.emitEv 4 1 0 2 false,
         KBEvent.puncEv 5] : List (KBEvent Nat)).filterMap eventWm?) := by
    simp [List.filterMap_cons, eventWm?, List.chain'_cons]
  ⟨hc, C1_keyby_per_destination_wm_monotone cfgPerTuple
    [KBEvent.emitEv 3 0 0 1 false, KBEvent.emitEv 4 1 0 2 false,
     KBEvent.puncEv 5] hc⟩

/-- C5: a Parallel_Windows with parallelism P, window length L and slide S
(all positive) in a non-MAP role is built successfully; each internal
replica i (0 ≤ i < P) is constructed with effective slide P times S and owns
exactly the windows whose identifier is congruent to i modulo P, and the
input routing mode of the operator is BROADCAST. -/
theorem C5_parallel_windows_distribution (P L S lat : Nat) (wt : Win_Type_t)
    (role : role_t) (hP : 0 < P) (hL : 0 < L) (hS : 0 < S)
    (hrole : role ≠ role_t.MAP) :
    ∃ op, Parallel_Windows_make P L S lat wt role = some op ∧
      op.replicas = (List.range P).map (fun i => ⟨L, P * S, lat, wt, role, i, P⟩) ∧
      op.replicas.length = P ∧
      (∀ i, i < P → ∀ wid,
        (Window_Replica_Cfg.ownsWindow ⟨L, P * S, lat, wt, role, i, P⟩ wid = true
          ↔ wid % P = i)) ∧
      op.getInputRoutingMode = Routing_Mode_t.BROADCAST := by
  have h1 : ¬ (P = 0) := Nat.pos_iff_ne_zero.mp hP
  have h2 : ¬ (L = 0 ∨ S = 0) := by
    rintro (h | h)
    · exact absurd h (Nat.pos_iff_ne_zero.mp hL)
    · exact absurd h (Nat.pos_iff_ne_zero.mp hS)
  refine ⟨{ parallelism := P, win_len := L, slide_len := S, lateness := lat, winType := wt,
            replicas := (List.range P).map fun i => ⟨L, S * P, lat, wt, role, i, P⟩ },
    ?_, ?_, ?_, ?_, rfl⟩
  · rw [Parallel_Windows_make, if_neg h1, if_neg h2, if_pos hrole]
  · show (List.range P).map (fun i => (⟨L, S * P, lat, wt, role, i, P⟩ :
        Window_Replica_Cfg)) = (List.range P).map (fun i => ⟨L, P * S, lat, wt, role, i, P⟩)
    rw [Nat.mul_comm S P]
  · simp
  · intro i _ wid
    simp [Window_Replica_Cfg.ownsWindow]

/-- Witness: the Parallel_Windows theorem applied to parallelism 3, window
length 4, slide 2, a count-based window and the SEQ role. -/
theorem C5_parallel_windows_distribution_witness :
    (0 < 3 ∧ 0 < 4 ∧ 0 < 2 ∧ role_t.SEQ ≠ role_t.MAP) ∧
    ∃ op, Parallel_Windows_make 3 4 2 0 Win_Type_t.CB role_t.SEQ = some op ∧
      op.replicas = (List.range 3).map
        (fun i => ⟨4, 3 * 2, 0, Win_Type_t.CB, role_t.SEQ, i, 3⟩) ∧
      op.replicas.length = 3 ∧
      (∀ i, i < 3 → ∀ wid,
        (Window_Replica_Cfg.ownsWindow ⟨4, 3 * 2, 0, Win_Type_t.CB, role_t.SEQ, i, 3⟩ wid
          = true ↔ wid % 3 = i)) ∧
      op.getInputRoutingMode = Routing_Mode_t.BROADCAST :=
  ⟨by decide, C5_parallel_windows_distribution 3 4 2 0 Win_Type_t.CB role_t.SEQ
    (by decide) (by decide) (by decide) (by decide)⟩

/-- C7: every listed configuration error is rejected at graph-assembly time
(the constructor or builder call evaluates to none, modelling the diagnostic
message followed by process termination, so no operator instance is created
from it): zero parallelism, zero window length or slide, lateness requested
on non-time-based windows, a time-based quantum that does not divide both
the window length and the slide, and a missing key extractor with
parallelism above one; conversely a configuration passing the key-extractor
check does produce an operator instance. -/
theorem C7_config_errors_rejected_at_assembly :
    (∀ L S lat wt role, Parallel_Windows_make 0 L S lat wt role = none) ∧
    (∀ P S lat wt role, Parallel_Windows_make P 0 S lat wt role = none) ∧
    (∀ P L lat wt role, Parallel_Windows_make P L 0 lat wt role = none) ∧
    (∀ (b : FFATAggGPUBuilder) (l : Nat), b.winType ≠ Win_Type_t.TB →
      b.withLateness l = none) ∧
    (∀ (b : FFATAggGPUBuilder) (w s q : Nat), w % q ≠ 0 ∨ s % q ≠ 0 →
      b.withTBWindows w s q = none) ∧
    (∀ b : FFATAggGPUBuilder, b.isKeyBySet = false → 1 < b.parallelism →
      b.build = none) ∧
    (∀ b : FFATAggGPUBuilder, b.isKeyBySet = true ∨ b.parallelism ≤ 1 →
      ∃ op, b.build = some op) := by
  refine ⟨?_, ?_, ?_, ?_, ?_, ?_, ?_⟩
  · intro L S lat wt role
    rw [Parallel_Windows_make, if_pos rfl]
  · intro P S lat wt role
    rw [Parallel_Windows_make]
    by_cases hP : P = 0
    · rw [if_pos hP]
    · rw [if_neg hP, if_pos (Or.inl rfl)]
  · intro P L lat wt role
    rw [Parallel_Windows_make]
    by_cases hP : P = 0
    · rw [if_pos hP]
    · rw [if_neg hP, if_pos (Or.inr rfl)]
  · intro b l h
    rw [FFATAggGPUBuilder.withLateness, if_pos h]
  · intro b w s q h
    rw [FFATAggGPUBuilder.withTBWindows, if_pos h]
  · intro b h1 h2
    rw [FFATAggGPUBuilder.build, if_pos ?_]
    refine ⟨?_, h2⟩
    rw [h1]
    intro h
    cases h
  · intro b h
    rw [FFATAggGPUBuilder.build, if_neg ?_]
    · exact ⟨_, rfl⟩
    · rintro ⟨hk, hp⟩
      rcases h with h | h
      · exact hk h
      · omega

/-- Witness: the configuration-error theorem applied to the initial FFAT
GPU builder (count-based by default, so lateness is rejected) and to a
quantum of 3 that does not divide a window length of 10. -/
theorem C7_config_errors_rejected_at_assembly_witness :
    (FFATAggGPUBuilder.init.winType ≠ Win_Type_t.TB ∧
     ((10 : Nat) % 3 ≠ 0 ∨ (6 : Nat) % 3 ≠ 0) ∧
     FFATAggGPUBuilder.init.isKeyBySet = false ∧
     1 < (FFATAggGPUBuilder.init.withParallelism 4).parallelism) ∧
    FFATAggGPUBuilder.init.withLateness 5 = none ∧
    FFATAggGPUBuilder.init.withTBWindows 10 6 3 = none ∧
    (FFATAggGPUBuilder.init.withParallelism 4).build = none :=
  ⟨by decide,
   C7_config_errors_rejected_at_assembly.2.2.2.1 FFATAggGPUBuilder.init 5 (by decide),
   C7_config_errors_rejected_at_assembly.2.2.2.2.1 FFATAggGPUBuilder.init 10 6 3
     (by decide),
   C7_config_errors_rejected_at_assembly.2.2.2.2.2.1
     (FFATAggGPUBuilder.init.withParallelism 4) (by decide) (by decide)⟩

/-- C8: over any sequence of Shipper calls, every push forwards the result
with the timestamp and watermark most recently installed by
setShipperParameters, each push increments the delivery counter by exactly
one, and getNumDelivered equals the total number of results pushed. -/
theorem C8_shipper_push_delivery (ρ : Type) :
    ∀ (ops : List (ShipOp ρ)) (st : ShipperState ρ),
      (runShipper st ops).getNumDelivered = st.getNumDelivered + shipPushCount ops ∧
      (runShipper st ops).emitted
        = st.emitted ++ shipExpected st.timestamp st.watermark ops
  | [], st => by
      constructor
      · simp [runShipper, shipPushCount, ShipperState.getNumDelivered]
      · simp [runShipper, shipExpected]
  | .setParams ts wm :: rest, st => by
      obtain ⟨h1, h2⟩ := C8_shipper_push_delivery ρ rest (st.setShipperParameters ts wm)
      constructor
      · rw [show runShipper st (.setParams ts wm :: rest)
            = runShipper (st.setShipperParameters ts wm) rest from rfl, h1]
        rfl
      · rw [show runShipper st (.setParams ts wm :: rest)
            = runShipper (st.setShipperParameters ts wm) rest from rfl, h2]
        rfl
  | .push r :: rest, st => by
      obtain ⟨h1, h2⟩ := C8_shipper_push_delivery ρ rest (st.push r)
      constructor
      · rw [show runShipper st (.push r :: rest)
            = runShipper (st.push r) rest from rfl, h1]
        show st.num_delivered + 1 + shipPushCount rest
          = st.num_delivered + (1 + shipPushCount rest)
        omega
      · rw [show runShipper st (.push r :: rest)
            = runShipper (st.push r) rest from rfl, h2]
        show (st.emitted ++ [(r, st.timestamp, st.watermark)])
              ++ shipExpected st.timestamp st.watermark rest
            = st.emitted ++ ((r, st.timestamp, st.watermark)
              :: shipExpected st.timestamp st.watermark rest)
        simp

/-- C10: the yahoo sequential demo misuses the inter-operator queue
containers: one iteration of Aggregate::op reads the element at the back of
join_to_aggregate but pops the back of the distinct filter_to_join vector
(which never held the consumed element), leaving the consumed element in
the container it was read from; and the item_data member of the Item seen by
Sink::op receives two destructor invocations (the explicit call in the
operator body and the implicit destruction at scope exit). -/
theorem C10_yahoo_container_misuse :
    Aggregate_iter (fun x => x + 1) (⟨[], [7], [20], []⟩ : ItemData Nat)
      = some ⟨[], [], [20], [21]⟩ ∧
    (⟨[], [], [20], [21]⟩ : ItemData Nat).join_to_aggregate
      = (⟨[], [7], [20], []⟩ : ItemData Nat).join_to_aggregate ∧
    (20 : Nat) ∉ (⟨[], [7], [20], []⟩ : ItemData Nat).filter_to_join ∧
    sink_item_data_dtors = [ItemDataDtor.explicitCall, ItemDataDtor.scopeExit] ∧
    1 < sink_item_data_dtors.length := by
  refine ⟨?_, rfl, ?_, rfl, ?_⟩
  · rfl
  · decide
  · decide

/-- C2: for a KeyBy emitter with at least one destination, both the
per-tuple and the batched routing paths choose the destination index as the
hash of the extracted key modulo the number of destinations (delivering the
payload there, or accumulating it into that destination's batch); two tuples
with equal keys therefore get the same destination, and the destination is
always in range. -/
theorem C2_keyby_routing_hash_mod {τ κ : Type} [Inhabited τ] (cfg : KeyByConfig τ κ)
    (hK : 1 ≤ cfg.num_dests) :
    (∀ {bound : Nat} {st : KeyByState τ} (out : Single_t τ) (tE : Bool),
      cfg.size = 0 → KBInv cfg bound st → bound ≤ out.getWatermark →
      out.isPunctuation = false →
      ∃ st' msgs1, routing cfg st out tE = some (st', msgs1 ++
        [Msg.single out (cfg.hashf (cfg.key_extr out.tuple) % cfg.num_dests)])) ∧
    (∀ {bound : Nat} {st : KeyByState τ} (t : τ) (ts wm : Nat) (tE : Bool),
      0 < cfg.size → KBInv cfg bound st → bound ≤ wm →
      ∃ st' msgs1 b1, b1.items.getLast? = some (t, ts, wm) ∧
        ((routing_batched cfg st t ts wm tE = some (st', msgs1 ++
            [Msg.batch b1 (cfg.hashf (cfg.key_extr t) % cfg.num_dests)]) ∧
          st'.batches_output (cfg.hashf (cfg.key_extr t) % cfg.num_dests) = none) ∨
         (routing_batched cfg st t ts wm tE = some (st', msgs1) ∧
          st'.batches_output (cfg.hashf (cfg.key_extr t) % cfg.num_dests) = some b1))) ∧
    (∀ t t' : τ, cfg.key_extr t = cfg.key_extr t' →
      cfg.hashf (cfg.key_extr t) % cfg.num_dests
        = cfg.hashf (cfg.key_extr t') % cfg.num_dests) ∧
    (∀ t : τ, cfg.hashf (cfg.key_extr t) % cfg.num_dests < cfg.num_dests) := by
  refine ⟨?_, ?_, ?_, ?_⟩
  · intro bound st out tE hsz hInv hbw hop
    obtain ⟨st', msgs1, hrun, _⟩ := routing_sound cfg hsz out tE hInv hbw hop
    exact ⟨st', msgs1, hrun⟩
  · intro bound st t ts wm tE hsz hInv hbw
    obtain ⟨st', msgs1, b1, hlast, _, _, _, hdisj, _⟩ :=
      routing_batched_sound cfg hsz t ts wm tE hInv hbw
    rcases hdisj with ⟨_, hrun, hbat, _⟩ | ⟨_, hrun, hbat, _⟩
    · exact ⟨st', msgs1, b1, hlast, Or.inl ⟨hrun, hbat⟩⟩
    · exact ⟨st', msgs1, b1, hlast, Or.inr ⟨hrun, hbat⟩⟩
  · intro t t' h
    rw [h]
  · intro t
    exact Nat.mod_lt _ hK

/-- Witness: the routing theorem applied to the per-tuple configuration in
its initial state on a concrete tuple. -/
theorem C2_keyby_routing_hash_mod_witness :
    (1 ≤ cfgPerTuple.num_dests ∧ cfgPerTuple.size = 0 ∧
     KBInv cfgPerTuple 0 (initKeyBy Nat) ∧
     (0 : Nat) ≤ (allocateSingle_t 5 0 0 3).getWatermark ∧
     (allocateSingle_t 5 0 0 3).isPunctuation = false) ∧
    ∃ st' msgs1, routing cfgPerTuple (initKeyBy Nat) (allocateSingle_t 5 0 0 3) false
      = some (st', msgs1 ++ [Msg.single (allocateSingle_t 5 0 0 3)
          (cfgPerTuple.hashf (cfgPerTuple.key_extr (allocateSingle_t 5 0 0 3).tuple)
            % cfgPerTuple.num_dests)]) :=
  ⟨⟨by decide, rfl, kbinv_init cfgPerTuple 0, Nat.zero_le _, rfl⟩,
   (C2_keyby_routing_hash_mod cfgPerTuple (by decide)).1 (allocateSingle_t 5 0 0 3) false
     rfl (kbinv_init cfgPerTuple 0) (Nat.zero_le _) rfl⟩

/-- C6: propagating a punctuation through a KeyBy emitter with K ≥ 1
destinations sends one logical copy of the same envelope to each of the K
destinations exactly once (after flushing any pending payload batches), and
the envelope's delete counter is raised so that its total reference count
equals the number of receiving destinations. -/
theorem C6_propagate_punctuation_broadcast {τ κ : Type} [Inhabited τ]
    (cfg : KeyByConfig τ κ) (hK : 0 < cfg.num_dests) {bound : Nat}
    {st : KeyByState τ} (wm : Nat) (hInv : KBInv cfg bound st) (hbw : bound ≤ wm) :
    ∃ st' fmsgs, propagate_punctuation cfg st wm
        = some (st', fmsgs ++ puncMsgsOf cfg wm) ∧
      (puncMsgsOf cfg wm : List (Msg τ)).map Msg.dest = List.range cfg.num_dests ∧
      (∀ m ∈ (puncMsgsOf cfg wm : List (Msg τ)),
        m.isPunct = true ∧ m.deleteCounter = cfg.num_dests ∧ m.wm = wm) ∧
      (∀ m ∈ (puncMsgsOf cfg wm : List (Msg τ)),
        ∀ m' ∈ (puncMsgsOf cfg wm : List (Msg τ)), Msg.sameEnvelope m m') ∧
      (∀ m ∈ fmsgs, m.isPunct = false) := by
  obtain ⟨st', fmsgs, hrun, _, _, hfp, _, _, _⟩ :=
    propagate_punctuation_sound cfg wm hInv hbw
  refine ⟨st', fmsgs, hrun, ?_, ?_, ?_, hfp⟩
  · by_cases hsz : cfg.size = 0
    · rw [puncMsgsOf, if_pos hsz]
      simp only [List.map_map]
      exact List.map_id (List.range cfg.num_dests)
    · rw [puncMsgsOf, if_neg hsz]
      simp only [List.map_map]
      exact List.map_id (List.range cfg.num_dests)
  · intro m hm
    by_cases hsz : cfg.size = 0
    · rw [puncMsgsOf, if_pos hsz] at hm
      obtain ⟨i, _, rfl⟩ := List.mem_map.mp hm
      refine ⟨rfl, ?_, ?_⟩
      · show 1 + (cfg.num_dests - 1) = cfg.num_dests
        omega
      · show (mkPuncSingle τ cfg.num_dests wm cfg.num_dests).getWatermark = wm
        rw [mkPuncSingle_getWatermark]
    · rw [puncMsgsOf, if_neg hsz] at hm
      obtain ⟨i, _, rfl⟩ := List.mem_map.mp hm
      refine ⟨rfl, ?_, ?_⟩
      · show 1 + (cfg.num_dests - 1) = cfg.num_dests
        omega
      · show (mkPuncBatch τ cfg.num_dests wm cfg.num_dests).getWatermark = wm
        rw [mkPuncBatch_getWatermark]
  · intro m hm m' hm'
    by_cases hsz : cfg.size = 0
    · rw [puncMsgsOf, if_pos hsz] at hm hm'
      obtain ⟨i, _, rfl⟩ := List.mem_map.mp hm
      obtain ⟨i', _, rfl⟩ := List.mem_map.mp hm'
      show (mkPuncSingle τ cfg.num_dests wm cfg.num_dests)
        = (mkPuncSingle τ cfg.num_dests wm cfg.num_dests)
      rfl
    · rw [puncMsgsOf, if_neg hsz] at hm hm'
      obtain ⟨i, _, rfl⟩ := List.mem_map.mp hm
      obtain ⟨i', _, rfl⟩ := List.mem_map.mp hm'
      show (mkPuncBatch τ cfg.num_dests wm cfg.num_dests)
        = (mkPuncBatch τ cfg.num_dests wm cfg.num_dests)
      rfl

/-- Witness: the punctuation-broadcast theorem applied to the batched
configuration in its initial state with watermark 7. -/
theorem C6_propagate_punctuation_broadcast_witness :
    (0 < cfgBatched.num_dests ∧ KBInv cfgBatched 0 (initKeyBy Nat) ∧ (0 : Nat) ≤ 7) ∧
    ∃ st' fmsgs, propagate_punctuation cfgBatched (initKeyBy Nat) 7
        = some (st', fmsgs ++ puncMsgsOf cfgBatched 7) ∧
      (puncMsgsOf cfgBatched 7 : List (Msg Nat)).map Msg.dest
        = List.range cfgBatched.num_dests ∧
      (∀ m ∈ (puncMsgsOf cfgBatched 7 : List (Msg Nat)),
        m.isPunct = true ∧ m.deleteCounter = cfgBatched.num_dests ∧ m.wm = 7) ∧
      (∀ m ∈ (puncMsgsOf cfgBatched 7 : List (Msg Nat)),
        ∀ m' ∈ (puncMsgsOf cfgBatched 7 : List (Msg Nat)), Msg.sameEnvelope m m') ∧
      (∀ m ∈ fmsgs, m.isPunct = false) :=
  ⟨⟨by decide, kbinv_init cfgBatched 0, Nat.zero_le 7⟩,
   C6_propagate_punctuation_broadcast cfgBatched (by decide) 7
     (kbinv_init cfgBatched 0) (Nat.zero_le 7)⟩

/-- C4: batching contract of the KeyBy emitter with batch size B above
zero: along any run with monotone watermarks every pending batch holds
between one and B tuples (one batch per destination); the batched routing
path appends the tuple with its own timestamp and watermark to the batch of
its hash destination and sends the batch exactly when it reaches B tuples;
flush sends every pending batch and clears all slots; propagate_punctuation
first emits exactly the pending batches and only then the punctuation
copies; and a punctuation-generation check emits, besides punctuations,
only previously pending batches (cut short). -/
theorem C4_keyby_batching_contract {τ κ : Type} [Inhabited τ] (cfg : KeyByConfig τ κ)
    (hsz : 0 < cfg.size) :
    (∀ (es : List (KBEvent τ)), List.Chain' (· ≤ ·) (es.filterMap eventWm?) →
      ∃ st' msgs, runKB cfg (initKeyBy τ) es = some (st', msgs) ∧
        ∀ d b, st'.batches_output d = some b → 0 < b.getSize ∧ b.getSize ≤ cfg.size) ∧
    (∀ {bound : Nat} {st : KeyByState τ} (t : τ) (ts wm : Nat) (tE : Bool),
      KBInv cfg bound st → bound ≤ wm →
      ∃ st' msgs1 b1, b1.items.getLast? = some (t, ts, wm) ∧ b1.getSize ≤ cfg.size ∧
        ((b1.getSize = cfg.size ∧ routing_batched cfg st t ts wm tE
            = some (st', msgs1 ++
                [Msg.batch b1 (cfg.hashf (cfg.key_extr t) % cfg.num_dests)]) ∧
          st'.batches_output (cfg.hashf (cfg.key_extr t) % cfg.num_dests) = none) ∨
         (b1.getSize < cfg.size ∧ routing_batched cfg st t ts wm tE = some (st', msgs1) ∧
          st'.batches_output (cfg.hashf (cfg.key_extr t) % cfg.num_dests) = some b1))) ∧
    (∀ {bound : Nat} {st : KeyByState τ}, KBInv cfg bound st →
      ∃ st' msgs, flush cfg st = some (st', msgs) ∧
        (∀ d, d < cfg.num_dests → st'.batches_output d = none) ∧
        msgs = (List.range cfg.num_dests).filterMap
          (fun i => (st.batches_output i).map (fun b => Msg.batch b i))) ∧
    (∀ {bound : Nat} {st : KeyByState τ} (wm : Nat), KBInv cfg bound st → bound ≤ wm →
      ∃ st', propagate_punctuation cfg st wm
          = some (st', ((List.range cfg.num_dests).filterMap
              (fun i => (st.batches_output i).map (fun b => Msg.batch b i)))
            ++ puncMsgsOf cfg wm) ∧
        (∀ d, d < cfg.num_dests → st'.batches_output d = none)) ∧
    (∀ {bound : Nat} {st : KeyByState τ} (wm : Nat), KBInv cfg bound st → bound ≤ wm →
      ∃ st' msgs, generate_punctuation cfg st wm true = some (st', msgs) ∧
        ∀ m ∈ msgs, m.isPunct = false →
          ∃ b, st.batches_output m.dest = some b ∧ m = Msg.batch b m.dest) := by
  refine ⟨?_, ?_, ?_, ?_, ?_⟩
  · intro es hch
    have hch0 : List.Chain' (· ≤ ·) (0 :: es.filterMap eventWm?) := by
      cases h : es.filterMap (eventWm? (τ := τ)) with
      | nil => simp
      | cons w rest =>
          rw [h] at hch
          rw [List.chain'_cons]
          exact ⟨Nat.zero_le w, hch⟩
    obtain ⟨st', msgs, hrun, hInv', _⟩ :=
      runKB_sound cfg es 0 (initKeyBy τ) (kbinv_init cfg 0) hch0
    refine ⟨st', msgs, hrun, ?_⟩
    intro d b hb
    obtain ⟨g1, g2, _⟩ := hInv'.2.2 d b hb
    exact ⟨g1, le_of_lt g2⟩
  · intro bound st t ts wm tE hInv hbw
    obtain ⟨st', msgs1, b1, hlast, _, hle, _, hdisj, _⟩ :=
      routing_batched_sound cfg hsz t ts wm tE hInv hbw
    rcases hdisj with ⟨hfull, hrun, hbat, _⟩ | ⟨hlt, hrun, hbat, _⟩
    · exact ⟨st', msgs1, b1, hlast, hle, Or.inl ⟨hfull, hrun, hbat⟩⟩
    · exact ⟨st', msgs1, b1, hlast, hle, Or.inr ⟨hlt, hrun, hbat⟩⟩
  · intro bound st hInv
    obtain ⟨st', msgs, hrun, _, _, hbz, _, hmc, _⟩ := flush_sound cfg hInv
    exact ⟨st', msgs, hrun, hbz, hmc hsz⟩
  · intro bound st wm hInv hbw
    obtain ⟨st', fmsgs, hrun, _, _, _, hbz, hmc, _⟩ :=
      propagate_punctuation_sound cfg wm hInv hbw
    rw [hmc hsz] at hrun
    exact ⟨st', hrun, hbz⟩
  · intro bound st wm hInv hbw
    obtain ⟨st', msgs, hrun, _, _, _, _, hnp, _, _⟩ :=
      generate_punctuation_sound cfg wm true hInv hbw
    exact ⟨st', msgs, hrun, hnp⟩

/-- Witness: the batching-contract theorem applied to the two-tuple batch
configuration in its initial state on one concrete tuple (the batch is not
yet full, so the tuple is accumulated). -/
theorem C4_keyby_batching_contract_witness :
    (0 < cfgBatched.size ∧ KBInv cfgBatched 0 (initKeyBy Nat) ∧ (0 : Nat) ≤ 3) ∧
    ∃ st' msgs1 b1, b1.items.getLast? = some (5, 0, 3) ∧ b1.getSize ≤ cfgBatched.size ∧
      ((b1.getSize = cfgBatched.size ∧ routing_batched cfgBatched (initKeyBy Nat) 5 0 3 false
          = some (st', msgs1 ++
              [Msg.batch b1 (cfgBatched.hashf (cfgBatched.key_extr 5) % cfgBatched.num_dests)]) ∧
        st'.batches_output (cfgBatched.hashf (cfgBatched.key_extr 5) % cfgBatched.num_dests)
          = none) ∨
       (b1.getSize < cfgBatched.size ∧
        routing_batched cfgBatched (initKeyBy Nat) 5 0 3 false = some (st', msgs1) ∧
        st'.batches_output (cfgBatched.hashf (cfgBatched.key_extr 5) % cfgBatched.num_dests)
          = some b1)) :=
  ⟨⟨by decide, kbinv_init cfgBatched 0, Nat.zero_le 3⟩,
   (C4_keyby_batching_contract cfgBatched (by decide)).2.1 5 0 3 false
     (kbinv_init cfgBatched 0) (Nat.zero_le 3)⟩

/-- C3 (amended): the punctuation-generation check of the KeyBy emitter
runs only under the DEFAULT execution mode. When it runs with the interval
elapsed, it sends a punctuation carrying the current upstream watermark to
exactly those destinations whose delivery counter for the sample is zero,
afterwards every in-range delivery counter is zero (counters with
deliveries are simply reset, and punctuation sends never increment them),
and every non-punctuation message it emits is a previously pending payload
batch; an emit whose punctuation gate is closed (wrong mode, counter not at
a multiple of WF_DEFAULT_WM_AMOUNT, or interval not elapsed) emits no
punctuation at all. -/
theorem C3_punctuation_generation_default_only {τ κ : Type} [Inhabited τ]
    (cfg : KeyByConfig τ κ) :
    (∀ {bound : Nat} {st : KeyByState τ} (wm : Nat), KBInv cfg bound st → bound ≤ wm →
      ∃ st' msgs, generate_punctuation cfg st wm true = some (st', msgs) ∧
        (msgs.filter Msg.isPunct).map Msg.dest = zeroDelivered cfg st ∧
        (∀ m ∈ msgs, m.isPunct = true → m.wm = wm) ∧
        (∀ d, d < cfg.num_dests → st'.delivered d = 0) ∧
        (∀ m ∈ msgs, m.isPunct = false →
          ∃ b, st.batches_output m.dest = some b ∧ m = Msg.batch b m.dest)) ∧
    (∀ {bound : Nat} {st : KeyByState τ} (t : τ) (ident ts wm : Nat) (tE : Bool),
      KBInv cfg bound st → bound ≤ wm →
      (¬ (cfg.execution_mode = Execution_Mode_t.DEFAULT ∧
          (st.received_inputs + 1) % cfg.wmAmount = 0) ∨ tE = false) →
      ∃ st' msgs, emit cfg st t ident ts wm tE = some (st', msgs) ∧
        msgs.filter Msg.isPunct = []) ∧
    (∀ {bound : Nat} {st : KeyByState τ} (t : τ) (ident ts wm : Nat),
      cfg.execution_mode = Execution_Mode_t.DEFAULT →
      (st.received_inputs + 1) % cfg.wmAmount = 0 →
      KBInv cfg bound st → bound ≤ wm →
      ∃ st' msgs, emit cfg st t ident ts wm true = some (st', msgs) ∧
        (msgs.filter Msg.isPunct).map Msg.dest = zeroDelivered cfg st ∧
        (∀ m ∈ msgs, m.isPunct = true → m.wm = wm)) := by
  refine ⟨?_, ?_, ?_⟩
  · intro bound st wm hInv hbw
    obtain ⟨st', msgs, hrun, _, _, hflt, hpp, hnp, hdlv, _⟩ :=
      generate_punctuation_sound cfg wm true hInv hbw
    refine ⟨st', msgs, hrun, ?_, ?_, ?_, hnp⟩
    · rw [hflt]
      rfl
    · intro m hm hp
      exact (hpp m hm hp).1
    · intro d hd
      rw [hdlv rfl d, if_pos hd]
  · intro bound st t ident ts wm tE hInv hbw hgate
    have hInv0 : KBInv cfg bound
        { st with received_inputs := st.received_inputs + 1 } := hInv
    by_cases hsz : cfg.size = 0
    · obtain ⟨st', msgs1, hrun, _, _, hflt, _⟩ :=
        routing_sound cfg hsz (allocateSingle_t t ident ts wm) tE hInv0
          (by rw [allocateSingle_t_getWatermark]; exact hbw) rfl
      refine ⟨st', msgs1 ++ [Msg.single (allocateSingle_t t ident ts wm)
          (cfg.hashf (cfg.key_extr (allocateSingle_t t ident ts wm).tuple) % cfg.num_dests)],
        ?_, ?_⟩
      · simp only [emit, if_pos hsz]
        exact hrun
      · have hif : ((cfg.execution_mode = Execution_Mode_t.DEFAULT ∧
            (st.received_inputs + 1) % cfg.wmAmount = 0) ∧ tE = true) → False := by
          rintro ⟨hg, htE⟩
          rcases hgate with h | h
          · exact h hg
          · rw [h] at htE
            cases htE
        rw [if_neg hif] at hflt
        exact List.map_eq_nil_iff.mp hflt
    · have hsz' : 0 < cfg.size := Nat.pos_of_ne_zero hsz
      obtain ⟨st', msgs1, b1, _, _, _, hb1p, hdisj, _, hflt, _⟩ :=
        routing_batched_sound cfg hsz' t ts wm tE hInv0 hbw
      have hif : ((cfg.execution_mode = Execution_Mode_t.DEFAULT ∧
          (st.received_inputs + 1) % cfg.wmAmount = 0) ∧ tE = true) → False := by
        rintro ⟨hg, htE⟩
        rcases hgate with h | h
        · exact h hg
        · rw [h] at htE
          cases htE
      rw [if_neg hif] at hflt
      have hm1 : msgs1.filter Msg.isPunct = [] := List.map_eq_nil_iff.mp hflt
      rcases hdisj with ⟨_, hrun, _, _⟩ | ⟨_, hrun, _, _⟩
      · refine ⟨st', msgs1 ++ [Msg.batch b1 (cfg.hashf (cfg.key_extr t) % cfg.num_dests)],
          ?_, ?_⟩
        · simp only [emit, if_neg hsz]
          exact hrun
        · rw [List.filter_append, hm1]
          simp [Msg.isPunct, hb1p]
      · refine ⟨st', msgs1, ?_, hm1⟩
        simp only [emit, if_neg hsz]
        exact hrun
  · intro bound st t ident ts wm hmode hamt hInv hbw
    have hInv0 : KBInv cfg bound
        { st with received_inputs := st.received_inputs + 1 } := hInv
    have hg : (cfg.execution_mode = Execution_Mode_t.DEFAULT ∧
        (st.received_inputs + 1) % cfg.wmAmount = 0) ∧ (true : Bool) = true :=
      ⟨⟨hmode, hamt⟩, rfl⟩
    by_cases hsz : cfg.size = 0
    · obtain ⟨st', msgs1, hrun, _, _, hflt, hpp⟩ :=
        routing_sound cfg hsz (allocateSingle_t t ident ts wm) true hInv0
          (by rw [allocateSingle_t_getWatermark]; exact hbw) rfl
      refine ⟨st', msgs1 ++ [Msg.single (allocateSingle_t t ident ts wm)
          (cfg.hashf (cfg.key_extr (allocateSingle_t t ident ts wm).tuple) % cfg.num_dests)],
        ?_, ?_, ?_⟩
      · simp only [emit, if_pos hsz]
        exact hrun
      · rw [if_pos hg] at hflt
        rw [hflt]
        rfl
      · intro m hm hp
        rcases List.mem_append.mp hm with hm1 | hm2
        · exact (hpp m hm1 hp).1
        · simp at hm2
          rw [hm2] at hp
          cases hp
    · have hsz' : 0 < cfg.size := Nat.pos_of_ne_zero hsz
      obtain ⟨st', msgs1, b1, _, _, _, hb1p, hdisj, _, hflt, hpp⟩ :=
        routing_batched_sound cfg hsz' t ts wm true hInv0 hbw
      rw [if_pos hg] at hflt
      rcases hdisj with ⟨_, hrun, _, _⟩ | ⟨_, hrun, _, _⟩
      · refine ⟨st', msgs1 ++ [Msg.batch b1 (cfg.hashf (cfg.key_extr t) % cfg.num_dests)],
          ?_, ?_, ?_⟩
        · simp only [emit, if_neg hsz]
          exact hrun
        · rw [List.filter_append]
          have hb : ([Msg.batch b1 (cfg.hashf (cfg.key_extr t) % cfg.num_dests)].filter
              Msg.isPunct) = [] := by
            simp [Msg.isPunct, hb1p]
          rw [hb, List.append_nil, hflt]
          rfl
        · intro m hm hp
          rcases List.mem_append.mp hm with hm1 | hm2
          · exact (hpp m hm1 hp).1
          · simp at hm2
            rw [hm2, show (Msg.batch b1 (cfg.hashf (cfg.key_extr t) % cfg.num_dests)).isPunct
                = b1.isPunctuation from rfl, hb1p] at hp
            cases hp
      · refine ⟨st', msgs1, ?_, ?_, ?_⟩
        · simp only [emit, if_neg hsz]
          exact hrun
        · rw [hflt]
          rfl
        · intro m hm hp
          exact (hpp m hm hp).1

/-- Witness: the amended punctuation theorem applied concretely: under
DEFAULT mode with the check firing on every input, an emit to a fresh
two-destination emitter sends the punctuation to both zero-delivery
destinations with the tuple's watermark. -/
theorem C3_punctuation_generation_default_only_witness :
    (cfgDefaultEvery.execution_mode = Execution_Mode_t.DEFAULT ∧
     ((initKeyBy Nat).received_inputs + 1) % cfgDefaultEvery.wmAmount = 0 ∧
     KBInv cfgDefaultEvery 0 (initKeyBy Nat) ∧ (0 : Nat) ≤ 5) ∧
    ∃ st' msgs, emit cfgDefaultEvery (initKeyBy Nat) 0 0 0 5 true = some (st', msgs) ∧
      (msgs.filter Msg.isPunct).map Msg.dest = zeroDelivered cfgDefaultEvery (initKeyBy Nat) ∧
      (∀ m ∈ msgs, m.isPunct = true → m.wm = 5) :=
  ⟨⟨rfl, by decide, kbinv_init cfgDefaultEvery 0, Nat.zero_le 5⟩,
   (C3_punctuation_generation_default_only cfgDefaultEvery).2.2 0 0 0 5 rfl (by decide)
     (kbinv_init cfgDefaultEvery 0) (Nat.zero_le 5)⟩

/-- C3 counterexample: under the DETERMINISTIC execution mode, with the
received-inputs counter at a multiple of WF_DEFAULT_WM_AMOUNT, the
punctuation interval elapsed and destination 1 showing zero deliveries, the
emitter emits no punctuation at all (the trace is just the routed payload),
refuting the claim that punctuation generation happens in every execution
mode. -/
theorem C3_counterexample_deterministic_no_punctuation :
    cfgDeterministic.execution_mode ≠ Execution_Mode_t.DEFAULT ∧
    ((initKeyBy Nat).received_inputs + 1) % cfgDeterministic.wmAmount = 0 ∧
    (initKeyBy Nat).delivered 1 = 0 ∧
    (emit cfgDeterministic (initKeyBy Nat) 0 0 0 5 true).map Prod.snd
      = some [Msg.single (allocateSingle_t 0 0 0 5) 0] ∧
    ([Msg.single (allocateSingle_t 0 0 0 5) 0] : List (Msg Nat)).filter Msg.isPunct = [] := by
  refine ⟨by decide, by decide, rfl, ?_, by decide⟩
  decide

end SPBench
